import Mathlib

/-!
# Verification of the `stingy` bit-packing codec

Shallow embedding of `src/stingy.py` (the final iteration of the module):
field kinds (`NumberField`, `BooleanField`, `HexField`, `ChoiceField`,
`DateField`, `ListField`, `MultipleChoiceField`), the ctypes-union based
`Stingy.encode` / `Stingy.decode` engine with its per-instance cache, and the
byte layout of the packed structure.

The ctypes `BigEndianStructure` instance is modelled as an ordered store of
named sub-fields `(name, bit_width, value)`: `setattr` updates an entry by
name, truncating the value to the declared bit width (ctypes bitfield
semantics), and `getattr` reads an entry by name.  The byte image of the
union (`as_byte`) is modelled from the spec's layout description: the
sub-fields' bit patterns concatenated in declaration order, MSB-first,
padded with zero bits to `ceil(total_bits/8)` bytes (the concrete
`ctypes.sizeof` memory layout of the host compiler is not itself
embeddable; the spec's Layout Builder section specifies this portable
layout, which we take as the model of the byte image).
-/

namespace Stingy

/-! ## Bit buffer: bits, bytes, widths -/

/-- The `w`-bit big-endian (MSB-first) bit pattern of `v` (truncated mod `2^w`). -/
def natToBits : Nat → Nat → List Bool
  | 0, _ => []
  | w + 1, v => natToBits w (v / 2) ++ [decide (v % 2 = 1)]

/-- Read a big-endian bit pattern back as a natural number. -/
def bitsToNat (bs : List Bool) : Nat :=
  bs.foldl (fun a b => 2 * a + (if b then 1 else 0)) 0

/-- Split a bit stream into fields of the given widths (extra trailing bits ignored). -/
def splitWidths : List Nat → List Bool → List Nat
  | [], _ => []
  | w :: ws, bs => bitsToNat (bs.take w) :: splitWidths ws (bs.drop w)

/-- Chunk a bit stream into bytes, 8 bits per byte, MSB first (fuelled for
structural recursion; `fuel ≥ length` suffices). -/
def bitsToBytesF : Nat → List Bool → List Nat
  | 0, _ => []
  | _ + 1, [] => []
  | f + 1, bs => bitsToNat (bs.take 8) :: bitsToBytesF f (bs.drop 8)

/-- Chunk a bit stream into bytes, 8 bits per byte, MSB first. -/
def bitsToBytes (bs : List Bool) : List Nat := bitsToBytesF bs.length bs

/-- The bit stream of a byte sequence, 8 bits per byte, MSB first. -/
def bytesToBits (bytes : List Nat) : List Bool := bytes.flatMap (natToBits 8)

theorem natToBits_length (w v : Nat) : (natToBits w v).length = w := by
  induction w generalizing v with
  | zero => rfl
  | succ w ih => simp [natToBits, ih]

theorem bitsToNat_append (xs ys : List Bool) :
    bitsToNat (xs ++ ys) =
      ys.foldl (fun a b => 2 * a + (if b then 1 else 0)) (bitsToNat xs) := by
  simp [bitsToNat, List.foldl_append]

theorem bitsToNat_snoc (xs : List Bool) (b : Bool) :
    bitsToNat (xs ++ [b]) = 2 * bitsToNat xs + (if b then 1 else 0) := by
  simp [bitsToNat_append, bitsToNat]

theorem bitsToNat_natToBits (w v : Nat) : bitsToNat (natToBits w v) = v % 2 ^ w := by
  induction w generalizing v with
  | zero => simp [natToBits, bitsToNat, Nat.mod_one]
  | succ w ih =>
    rw [natToBits, bitsToNat_snoc, ih]
    rw [pow_succ, Nat.mul_comm (2 ^ w) 2, Nat.mod_mul]
    rcases Nat.mod_two_eq_zero_or_one v with h | h <;> simp [h] <;> omega

theorem bitsToNat_lt (bs : List Bool) : bitsToNat bs < 2 ^ bs.length := by
  induction bs using List.reverseRecOn with
  | nil => simp [bitsToNat]
  | append_singleton xs b ih =>
    rw [bitsToNat_snoc]
    simp only [List.length_append, List.length_singleton, pow_succ]
    have hb : (if b then 1 else 0) ≤ 1 := by rcases b <;> simp
    omega

theorem natToBits_bitsToNat (bs : List Bool) : natToBits bs.length (bitsToNat bs) = bs := by
  induction bs using List.reverseRecOn with
  | nil => rfl
  | append_singleton xs b ih =>
    rw [bitsToNat_snoc]
    simp only [List.length_append, List.length_singleton]
    rw [natToBits]
    have hdiv : (2 * bitsToNat xs + (if b then 1 else 0)) / 2 = bitsToNat xs := by
      rcases b <;> simp <;> omega
    have hmod : (2 * bitsToNat xs + (if b then 1 else 0)) % 2 = if b then 1 else 0 := by
      rcases b <;> simp <;> omega
    rw [hdiv, hmod, ih]
    rcases b <;> simp

theorem splitWidths_append (ws : List Nat) (vs : List Nat) (rest : List Bool)
    (hlen : vs.length = ws.length)
    (hbound : ∀ p ∈ List.zip ws vs, p.2 < 2 ^ p.1) :
    splitWidths ws ((List.zipWith natToBits ws vs).flatten ++ rest) = vs := by
  induction ws generalizing vs rest with
  | nil => cases vs with
    | nil => rfl
    | cons v vs => simp at hlen
  | cons w ws ih =>
    cases vs with
    | nil => simp at hlen
    | cons v vs =>
      simp only [List.zipWith_cons_cons, List.flatten_cons, List.append_assoc]
      rw [splitWidths]
      have hw : (natToBits w v).length = w := natToBits_length w v
      rw [List.take_append_of_le_length (by omega), List.take_of_length_le (by omega)]
      rw [List.drop_append_of_le_length (by omega), List.drop_of_length_le (by omega)]
      simp only [List.nil_append]
      have h1 : bitsToNat (natToBits w v) = v := by
        rw [bitsToNat_natToBits]
        exact Nat.mod_eq_of_lt (hbound (w, v) (by simp))
      rw [h1, ih vs rest (by simpa using hlen) (fun p hp => hbound p (by simp [hp]))]

theorem bitsToBytesF_length (f : Nat) (bs : List Bool) (hf : bs.length ≤ f) :
    (bitsToBytesF f bs).length = (bs.length + 7) / 8 := by
  induction f generalizing bs with
  | zero =>
    have : bs = [] := List.eq_nil_of_length_eq_zero (by omega)
    subst this; rfl
  | succ f ih =>
    cases bs with
    | nil => rfl
    | cons b bs' =>
      rw [bitsToBytesF]
      · simp only [List.length_cons]
        have hrec := ih ((b :: bs').drop 8)
          (by simp only [List.length_drop, List.length_cons] at hf ⊢; omega)
        simp only [List.length_drop, List.length_cons] at hrec
        rw [hrec]
        omega
      · simp

theorem bitsToBytes_length (bs : List Bool) :
    (bitsToBytes bs).length = (bs.length + 7) / 8 :=
  bitsToBytesF_length bs.length bs le_rfl

theorem bytesToBits_bitsToBytesF (f : Nat) (bs : List Bool)
    (hf : bs.length ≤ f) (hdvd : 8 ∣ bs.length) :
    bytesToBits (bitsToBytesF f bs) = bs := by
  induction f generalizing bs with
  | zero =>
    have : bs = [] := List.eq_nil_of_length_eq_zero (by omega)
    subst this; rfl
  | succ f ih =>
    cases bs with
    | nil => rfl
    | cons b bs' =>
      obtain ⟨k, hk⟩ := hdvd
      have hk1 : 1 ≤ k := by
        by_contra h
        simp only [List.length_cons] at hk
        omega
      have htake : ((b :: bs').take 8).length = 8 := by
        rw [List.length_take]
        simp only [List.length_cons] at hk ⊢
        omega
      have h8 : natToBits 8 (bitsToNat ((b :: bs').take 8)) = (b :: bs').take 8 := by
        have h := natToBits_bitsToNat ((b :: bs').take 8)
        rwa [htake] at h
      have hrec : bytesToBits (bitsToBytesF f ((b :: bs').drop 8)) = (b :: bs').drop 8 := by
        apply ih
        · rw [List.length_drop]; simp only [List.length_cons] at hf ⊢; omega
        · rw [List.length_drop]; simp only [List.length_cons] at hk ⊢
          exact ⟨k - 1, by omega⟩
      rw [bitsToBytesF]
      · show natToBits 8 (bitsToNat ((b :: bs').take 8)) ++
            bytesToBits (bitsToBytesF f ((b :: bs').drop 8)) = b :: bs'
        rw [h8, hrec, List.take_append_drop]
      · simp

theorem bytesToBits_bitsToBytes (bs : List Bool) (hdvd : 8 ∣ bs.length) :
    bytesToBits (bitsToBytes bs) = bs :=
  bytesToBits_bitsToBytesF bs.length bs le_rfl hdvd

/-! ## Field kinds and values

`FieldKind` mirrors the seven field classes of `stingy.py`; each constructor
carries exactly the constructor arguments of the Python class.
`Value` is the dynamically-typed value a record maps a field name to
(`vnone` is Python's `None`, produced by `data.get` on a missing key). -/

inductive FieldKind where
  | number (maxValue : Nat)
  | boolean
  | hex (length : Nat)
  | choice (choices : List String)
  | date (minYear maxYear : Nat)
  | mchoice (choices : List String)
  | list (elem : FieldKind) (length : Nat)
deriving DecidableEq

inductive Value where
  | vint (n : Int)
  | vbool (b : Bool)
  | vhex (s : String)
  | vchoice (s : String)
  | vset (s : List String)
  | vdate (y m d : Nat)
  | vlist (vs : List Value)
  | vnone

/-- `BaseStingyField.prefix`: the `"%s_%s"` sub-field naming scheme. -/
def prefixName (name text : String) : String := name ++ "_" ++ text

/-- Fuelled helper for `bitLen` (structural, so it reduces in the kernel). -/
def bitLenF : Nat → Nat → Nat
  | 0, _ => 0
  | f + 1, n => if n = 0 then 0 else bitLenF f (n / 2) + 1

/-- Python `int.bit_length` on a natural number: 0 for 0, else `log2 n + 1`. -/
def bitLen (n : Nat) : Nat := bitLenF n n

theorem bitLenF_eq (f g n : Nat) (hf : n ≤ f) (hg : n ≤ g) :
    bitLenF f n = bitLenF g n := by
  induction f generalizing g n with
  | zero =>
    interval_cases n
    cases g <;> simp [bitLenF]
  | succ f ih =>
    cases g with
    | zero =>
      interval_cases n
      simp [bitLenF]
    | succ g =>
      by_cases hn : n = 0
      · simp [bitLenF, hn]
      · rw [bitLenF, bitLenF, if_neg hn, if_neg hn, ih g (n / 2) (by omega) (by omega)]

theorem lt_two_pow_bitLen (n : Nat) : n < 2 ^ bitLen n := by
  suffices h : ∀ f n, n ≤ f → n < 2 ^ bitLenF f n from h n n le_rfl
  intro f
  induction f with
  | zero => intro n hn; interval_cases n; simp [bitLenF]
  | succ f ih =>
    intro n hn
    by_cases hz : n = 0
    · simp [bitLenF, hz]
    · rw [bitLenF, if_neg hz, pow_succ]
      have := ih (n / 2) (by omega)
      omega

theorem bitLen_le_of_lt_two_pow (n m : Nat) (h : n < 2 ^ m) : bitLen n ≤ m := by
  suffices hs : ∀ f n m, n ≤ f → n < 2 ^ m → bitLenF f n ≤ m from hs n n m le_rfl h
  intro f
  induction f with
  | zero => intro n m hn _; interval_cases n; simp [bitLenF]
  | succ f ih =>
    intro n m hn hm
    by_cases hz : n = 0
    · simp [bitLenF, hz]
    · rw [bitLenF, if_neg hz]
      have hm0 : m ≠ 0 := by
        rintro rfl
        simp at hm
        omega
      have h2 : 2 ^ m = 2 * 2 ^ (m - 1) := by
        rw [← pow_succ']
        congr 1
        omega
      have := ih (n / 2) (m - 1) (by omega) (by omega)
      omega

theorem bitLen_eq_size (n : Nat) : bitLen n = Nat.size n := by
  apply le_antisymm
  · exact bitLen_le_of_lt_two_pow n _ (Nat.lt_size_self n)
  · rw [Nat.size_le]
    exact lt_two_pow_bitLen n

/-- Python `int.bit_length` on a (possibly negative) integer: bit length of the
absolute value. -/
def pyBitLength (n : Int) : Nat := bitLen n.natAbs

/-- Value of one hex digit, accepting both letter cases (as
`bytearray.fromhex` does). -/
def hexVal (c : Char) : Option Nat :=
  if 48 ≤ c.toNat ∧ c.toNat ≤ 57 then some (c.toNat - 48)
  else if 97 ≤ c.toNat ∧ c.toNat ≤ 102 then some (c.toNat - 87)
  else if 65 ≤ c.toNat ∧ c.toNat ≤ 70 then some (c.toNat - 55)
  else none

/-- Parse a hex string two digits at a time into bytes (`bytearray.fromhex`). -/
def hexPairs : List Char → Option (List Nat)
  | [] => some []
  | [_] => none
  | a :: b :: rest => do
      let x ← hexVal a
      let y ← hexVal b
      let r ← hexPairs rest
      pure ((16 * x + y) :: r)

/-- A big-endian byte sequence as a single natural number. -/
def bytesBE (bs : List Nat) : Nat := bs.foldl (fun a b => 256 * a + b) 0

/-- Decompose a natural number into `k` big-endian bytes. -/
def byteSplit : Nat → Nat → List Nat
  | 0, _ => []
  | k + 1, v => byteSplit k (v / 256) ++ [v % 256]

/-- Lowercase hex digit for a nibble (`binascii.hexlify` output alphabet). -/
def hexChar (n : Nat) : Char :=
  if n < 10 then Char.ofNat (48 + n) else Char.ofNat (87 + n)

/-- The two lowercase hex digits of one byte. -/
def byteHexChars (b : Nat) : List Char := [hexChar (b / 16), hexChar (b % 16)]

/-- A lowercase hex digit (`0`-`9`, `a`-`f`). -/
def isLowerHex (c : Char) : Bool :=
  (decide (48 ≤ c.toNat) && decide (c.toNat ≤ 57)) ||
  (decide (97 ≤ c.toNat) && decide (c.toNat ≤ 102))

/-- Any hex digit, either case. -/
def isHexDigit (c : Char) : Bool :=
  isLowerHex c || (decide (65 ≤ c.toNat) && decide (c.toNat ≤ 70))

/-- Gregorian leap-year rule used by `datetime.date`. -/
def isLeapYear (y : Nat) : Bool :=
  y % 4 == 0 && (y % 100 != 0 || y % 400 == 0)

/-- Days in a month per `datetime.date`. -/
def daysInMonth (y m : Nat) : Nat :=
  if m == 2 then (if isLeapYear y then 29 else 28)
  else if m == 4 || m == 6 || m == 9 || m == 11 then 30
  else 31

/-- Validity of `datetime.date(y, m, d)` (raises `ValueError` otherwise). -/
def isValidDate (y m d : Nat) : Bool :=
  decide (1 ≤ y) && decide (y ≤ 9999) && decide (1 ≤ m) && decide (m ≤ 12) &&
  decide (1 ≤ d) && decide (d ≤ daysInMonth y m)

/-- Python `list.index`: index of the first occurrence, `None` modelling the
`ValueError` on a missing element. -/
def pyIndex (cs : List String) (c : String) : Option Nat :=
  match cs with
  | [] => none
  | a :: rest => if a = c then some 0 else (pyIndex rest c).map (· + 1)

/-- Helper for `choiceMapping`: position of the last occurrence, offset by `i`. -/
def lastIndexAux : List String → String → Nat → Option Nat
  | [], _, _ => none
  | a :: rest, c, i =>
      match lastIndexAux rest c (i + 1) with
      | some j => some j
      | none => if a = c then some i else none

/-- `MultipleChoiceField.choice_mapping`: the dict built by
`for i, choice in enumerate(choices): mapping[choice] = key_i` — for each
distinct choice, the index of its last occurrence wins. -/
def choiceMapping (cs : List String) (c : String) : Option Nat :=
  lastIndexAux cs c 0

/-! ## Sub-field layout, pack, unpack

Each field contributes an ordered run of named bit-width sub-fields to the
ctypes structure (`prepare_structure`).  `pack` turns a value into the dict
of sub-field assignments the field's `pack` method returns (`none` models a
raised exception), and `unpack` reads sub-fields back out of a structure
instance by name (`unpack`).  All three are defined through `FieldKind.rec`
so that they reduce definitionally on concrete inputs. -/

/-- A ctypes structure instance: ordered sub-fields `(name, bit_width, value)`. -/
abbrev Store := List (String × Nat × Nat)

/-- A field `pack` result: sub-field name to (Python int) value. -/
abbrev Dict := List (String × Int)

/-- `getattr` on the structure: value of the named sub-field (0 if absent). -/
def storeGet (st : Store) (key : String) : Nat :=
  match st.find? (fun e => e.1 == key) with
  | some e => e.2.2
  | none => 0

/-- `prepare_structure` of each field class: its ordered `(name, bit_width)`
sub-fields, with `ListField` recursively instantiating `length` copies of the
element field named `prefix(i)`. -/
def subFields : FieldKind → String → List (String × Nat)
  | .number maxValue => fun name => [(prefixName name "num", bitLen maxValue)]
  | .boolean => fun name => [(prefixName name "bool", 1)]
  | .hex length => fun name => [(prefixName name "hex", 8 * (length / 2))]
  | .choice choices => fun name => [(prefixName name "cho", bitLen choices.length)]
  | .date minYear maxYear => fun name =>
      [(prefixName name "year", bitLen (maxYear - minYear)),
       (prefixName name "month", 4), (prefixName name "day", 5)]
  | .mchoice choices => fun name => (List.range choices.length).map
      (fun i => (prefixName name ("mcho" ++ toString i), 1))
  | .list elem length => fun name => (prefixName name "size", bitLen length) ::
      ((List.range length).map (fun i => subFields elem (prefixName name (toString i)))).flatten

/-- Packs the elements of a `ListField` value against the instantiated element
fields `prefix(0), prefix(1), ...` in order (`zip(self.fields, values)`). -/
def seqPack (p : String → Value → Option Dict) (base : String) :
    Nat → List Value → Option Dict
  | _, [] => some []
  | i, v :: vs => do
      let d ← p (prefixName base (toString i)) v
      let r ← seqPack p base (i + 1) vs
      pure (d ++ r)

/-- The `pack` method of each field class.  `none` models a raised
exception (failed `assert`, `ValueError`, `KeyError`, `AttributeError`).
Note what is **not** checked, faithfully to the source: `NumberField.pack`
only asserts `value.bit_length() <= num_bits` (a negative value of small
magnitude passes), and `ListField.pack` never compares `len(values)` with
the declared length (`zip` silently truncates, the size prefix keeps the
full length). -/
def pack : FieldKind → String → Value → Option Dict
  | .number maxValue => fun name v => match v with
      | .vint n => if pyBitLength n ≤ bitLen maxValue then
            some [(prefixName name "num", n)]
          else none
      | _ => none
  | .boolean => fun name v => match v with
      | .vbool b => some [(prefixName name "bool", if b then 1 else 0)]
      | _ => none
  | .hex length => fun name v => match v with
      | .vhex s => if s.length = 2 * (length / 2) then
            (hexPairs s.toList).map (fun bs => [(prefixName name "hex", (bytesBE bs : Int))])
          else none
      | _ => none
  | .choice choices => fun name v => match v with
      | .vchoice c => (pyIndex choices c).map (fun i => [(prefixName name "cho", (i : Int))])
      | _ => none
  | .date _minYear _maxYear => fun name v => match v with
      | .vdate y m d => if isValidDate y m d then
            some [(prefixName name "year", (y : Int) - 2000),
                  (prefixName name "month", (m : Int)), (prefixName name "day", (d : Int))]
          else none
      | _ => none
  | .mchoice choices => fun name v => match v with
      | .vset s => if s.all (fun c => choices.contains c) then
            some (s.dedup.filterMap (fun c => (choiceMapping choices c).map
              (fun i => (prefixName name ("mcho" ++ toString i), (1 : Int)))))
          else none
      | _ => none
  | .list elem length => fun name v => match v with
      | .vlist vs => (seqPack (pack elem) name 0 (vs.take length)).map
          (fun ds => (prefixName name "size", (vs.length : Int)) :: ds)
      | _ => none

/-- Unpacks `count` elements of a `ListField` from the structure
(`for field in self.fields[:size]`). -/
def seqUnpack (u : String → Store → Option Value) (base : String) (st : Store) :
    Nat → Nat → Option (List Value)
  | _, 0 => some []
  | i, c + 1 => do
      let v ← u (prefixName base (toString i)) st
      let r ← seqUnpack u base st (i + 1) c
      pure (v :: r)

/-- The `unpack` method of each field class, reading sub-fields by name from
a structure instance.  `none` models `IndexError` (`ChoiceField` index beyond
`choices`) and `ValueError` (`datetime.date` on invalid month/day). -/
def unpack : FieldKind → String → Store → Option Value
  | .number _maxValue => fun name st => some (.vint (storeGet st (prefixName name "num")))
  | .boolean => fun name st => some (.vbool (storeGet st (prefixName name "bool") != 0))
  | .hex length => fun name st => some (.vhex (String.mk
      ((byteSplit (length / 2) (storeGet st (prefixName name "hex"))).flatMap byteHexChars)))
  | .choice choices => fun name st =>
      (choices.get? (storeGet st (prefixName name "cho"))).map .vchoice
  | .date _minYear _maxYear => fun name st =>
      let y := storeGet st (prefixName name "year")
      let m := storeGet st (prefixName name "month")
      let d := storeGet st (prefixName name "day")
      if isValidDate (2000 + y) m d then some (.vdate (2000 + y) m d) else none
  | .mchoice choices => fun name st => some (.vset (choices.dedup.filter (fun c =>
      match choiceMapping choices c with
      | some i => storeGet st (prefixName name ("mcho" ++ toString i)) != 0
      | none => false)))
  | .list elem length => fun name st =>
      (seqUnpack (unpack elem) name st 0
        (min (storeGet st (prefixName name "size")) length)).map .vlist

/-- The valid domain of a field, per the round-trip claim: non-negative
integers fitting the declared bits, booleans, **lowercase** hex strings of
the declared length, declared choice labels, subsets of the declared
choices, dates with `year - 2000` in the stored year window, lists within
capacity of valid elements. -/
def validValue : FieldKind → Value → Bool
  | .number maxValue => fun v => match v with
      | .vint n => decide (0 ≤ n) && decide (pyBitLength n ≤ bitLen maxValue)
      | _ => false
  | .boolean => fun v => match v with | .vbool _ => true | _ => false
  | .hex length => fun v => match v with
      | .vhex s => decide (s.length = 2 * (length / 2)) && s.toList.all isLowerHex
      | _ => false
  | .choice choices => fun v => match v with
      | .vchoice c => choices.contains c
      | _ => false
  | .date minYear maxYear => fun v => match v with
      | .vdate y m d => isValidDate y m d && decide (2000 ≤ y) &&
          decide (y - 2000 < 2 ^ bitLen (maxYear - minYear))
      | _ => false
  | .mchoice choices => fun v => match v with
      | .vset s => s.all (fun c => choices.contains c)
      | _ => false
  | .list elem length => fun v => match v with
      | .vlist vs => decide (vs.length ≤ length) && vs.all (validValue elem)
      | _ => false

/-! ## Python `str()` of record values

`Stingy.encode` builds its cache key as `field.name + str(field_value)`.
We model Python 2's `str` on the value types a record can hold.  A `set`'s
iteration order is implementation-defined in Python; we render elements in
first-occurrence order, which only matters for the *exact* key string, not
for any of the collision facts proved below. -/

/-- Left-pad a digit string with zeros to width `k`. -/
def padZeros (k : Nat) (s : String) : String :=
  String.mk (List.replicate (k - s.length) '0') ++ s

mutual
/-- Python 2 `repr` of a value (container elements are rendered with
`repr`, so strings gain quotes). -/
def pyRepr : Value → String
  | .vint n => toString n
  | .vbool b => if b then "True" else "False"
  | .vhex s => "'" ++ s ++ "'"
  | .vchoice s => "'" ++ s ++ "'"
  | .vset s => "set([" ++
      String.intercalate ", " (s.dedup.map (fun c => "'" ++ c ++ "'")) ++ "])"
  | .vdate y m d => "datetime.date(" ++ toString y ++ ", " ++ toString m ++ ", " ++
      toString d ++ ")"
  | .vlist vs => "[" ++ pyReprList vs ++ "]"
  | .vnone => "None"

/-- Comma-separated `repr`s of list elements. -/
def pyReprList : List Value → String
  | [] => ""
  | [v] => pyRepr v
  | v :: vs => pyRepr v ++ ", " ++ pyReprList vs
end

/-- Python 2 `str` of a value: like `repr` except top-level strings are bare
and dates render in ISO form. -/
def pyStr : Value → String
  | .vint n => toString n
  | .vbool b => if b then "True" else "False"
  | .vhex s => s
  | .vchoice s => s
  | .vset s => pyRepr (.vset s)
  | .vdate y m d => padZeros 4 (toString y) ++ "-" ++ padZeros 2 (toString m) ++ "-" ++
      padZeros 2 (toString d)
  | .vlist vs => pyRepr (.vlist vs)
  | .vnone => "None"

/-! ## The codec engine

`Stingy.__init__` / `encode` / `decode`.  `EngineState` is the mutable state
of one engine instance: the ctypes union's structure contents and the
per-instance cache. -/

/-- A schema: the class's `fields`, in declaration order (field names are
the attribute names, unique because the class body is a dict). -/
abbrev Schema := List (String × FieldKind)

/-- A record: Python dict from field name to value. -/
abbrev Record := List (String × Value)

/-- The encode cache: `name + str(value)` to the memoized pack dict. -/
abbrev Cache := List (String × Dict)

/-- Mutable state of one `Stingy` instance. -/
structure EngineState where
  store : Store
  cache : Cache

/-- `setattr` on the structure: ctypes truncates a bitfield assignment to
the declared width (`value mod 2^width`, two's complement for negative
values).  Assigning a name that is not a declared sub-field silently
creates an ordinary instance attribute and leaves the buffer unchanged. -/
def storeSet (st : Store) (key : String) (v : Int) : Store :=
  st.map (fun e => if e.1 = key then (e.1, e.2.1, (v % (2 : Int) ^ e.2.1).toNat) else e)

/-- Apply a field's pack dict to the structure, one `setattr` per entry. -/
def applyDict (st : Store) (d : Dict) : Store :=
  d.foldl (fun s p => storeSet s p.1 p.2) st

/-- `data.get(field.name)`: the record's value, `None` when missing. -/
def lookupValue (rec : Record) (n : String) : Value := (rec.lookup n).getD .vnone

/-- The per-field loop of `Stingy.encode`: look the value up, consult the
cache under key `field.name + str(field_value)`, pack on a miss, and write
the resulting dict into the structure.  The buffer is **not** cleared
beforehand: the source's reset line assigns to the misspelled attribute
`as_bytes` (the union field is `as_byte`), which only creates an unrelated
instance attribute, so sub-fields not written by this call keep their
previous contents. -/
def encodeFields : Schema → Record → Store → Cache → Option (Store × Cache)
  | [], _, store, cache => some (store, cache)
  | (n, k) :: rest, rec, store, cache =>
      let v := lookupValue rec n
      let key := n ++ pyStr v
      match cache.lookup key with
      | some d => encodeFields rest rec (applyDict store d) cache
      | none =>
          match pack k n v with
          | some d => encodeFields rest rec (applyDict store d) ((key, d) :: cache)
          | none => none

/-- The same loop with every field's bit pattern recomputed via the field's
own `pack`, never consulting the cache (the reference behavior the cache is
supposed to be transparent against). -/
def encodeFieldsNoCache : Schema → Record → Store → Option Store
  | [], _, store => some store
  | (n, k) :: rest, rec, store =>
      match pack k n (lookupValue rec n) with
      | some d => encodeFieldsNoCache rest rec (applyDict store d)
      | none => none

/-- All sub-fields of the schema in declaration order: the structure's
`_fields_` list. -/
def subFieldsAll (sch : Schema) : List (String × Nat) :=
  (sch.map (fun f => subFields f.2 f.1)).flatten

/-- Total declared bits of the schema. -/
def totalBits (sch : Schema) : Nat := ((subFieldsAll sch).map (fun e => e.2)).sum

/-- Modelled from the spec: the byte size of the packed structure
(`ctypes.sizeof(StingyStructure)` in the source, whose concrete value is
the host compiler's bitfield memory layout and is not itself embeddable;
the spec's Layout Builder fixes it as `ceil(total_bits / 8)`). -/
def totalBytes (sch : Schema) : Nat := (totalBits sch + 7) / 8

/-- The structure's bit image: each sub-field's bit pattern in declaration
order, MSB first. -/
def storeBits (st : Store) : List Bool := (st.map (fun e => natToBits e.2.1 e.2.2)).flatten

/-- Modelled from the spec: the union's `as_byte` view — the bit image
padded with zero bits to whole bytes (see `totalBytes`). -/
def storeToBytes (sch : Schema) (st : Store) : List Nat :=
  bitsToBytes (storeBits st ++ List.replicate (8 * totalBytes sch - totalBits sch) false)

/-- `Stingy.encode`: run the per-field loop on the current instance state
and return the byte image of the (never pre-cleared) structure together
with the new state. -/
def encode (sch : Schema) (st : EngineState) (rec : Record) :
    Option (List Nat × EngineState) :=
  (encodeFields sch rec st.store st.cache).map
    (fun p => (storeToBytes sch p.1, ⟨p.1, p.2⟩))

/-- Encoding as it would be with the cache lookup removed (every field
repacked); used to state cache-transparency. -/
def encodeNoCache (sch : Schema) (st : EngineState) (rec : Record) : Option (List Nat) :=
  (encodeFieldsNoCache sch rec st.store).map (storeToBytes sch)

/-- The decode comprehension: `{field.name: field.unpack(sub_fields) ...}`. -/
def unpackFields : Schema → Store → Option Record
  | [], _ => some []
  | (n, k) :: rest, store => do
      let v ← unpack k n store
      let r ← unpackFields rest store
      pure ((n, v) :: r)

/-- A structure instance with the given sub-field values. -/
def mkStore (subs : List (String × Nat)) (vals : List Nat) : Store :=
  List.zipWith (fun (nw : String × Nat) v => (nw.1, nw.2, v)) subs vals

/-- `Stingy.decode`: rebuild the structure from the byte string and unpack
every field.  Faithfully to `(c_ubyte * num_bytes)(*byte_data)`: a byte
string **longer** than the structure raises (`none`), while a shorter one
is accepted and zero-fills the remaining bytes; there is no length guard. -/
def decode (sch : Schema) (st : EngineState) (bytes : List Nat) :
    Option (Record × EngineState) :=
  if totalBytes sch < bytes.length then none
  else
    let padded := bytes ++ List.replicate (totalBytes sch - bytes.length) 0
    let store' := mkStore (subFieldsAll sch)
      (splitWidths ((subFieldsAll sch).map (fun e => e.2)) (bytesToBits padded))
    (unpackFields sch store').map (fun r => (r, ⟨store', st.cache⟩))

/-- A freshly constructed instance: ctypes zero-initializes the union and
the cache starts empty. -/
def freshState (sch : Schema) : EngineState :=
  ⟨(subFieldsAll sch).map (fun e => (e.1, e.2, 0)), []⟩

/-- The bytes of `encode` on a fresh instance. -/
def encodeFresh (sch : Schema) (rec : Record) : Option (List Nat) :=
  (encode sch (freshState sch) rec).map (fun p => p.1)

/-- `decode(encode(record))` on a fresh instance. -/
def roundTrip (sch : Schema) (rec : Record) : Option Record := do
  let bs ← encodeFresh sch rec
  (decode sch (freshState sch) bs).map (fun p => p.1)

/-! ## Record equality up to set semantics

The round-trip claim compares records with `==`, "with set equality for
multi-choice fields": Python compares a decoded `set` with the input `set`
by membership, and decoded lists elementwise. -/

/-- Value equality as Python `==` compares a decoded value with an input
value: sets by membership, lists elementwise, everything else literally. -/
inductive VEquiv : Value → Value → Prop where
  | vint (n : Int) : VEquiv (.vint n) (.vint n)
  | vbool (b : Bool) : VEquiv (.vbool b) (.vbool b)
  | vhex (s : String) : VEquiv (.vhex s) (.vhex s)
  | vchoice (s : String) : VEquiv (.vchoice s) (.vchoice s)
  | vdate (y m d : Nat) : VEquiv (.vdate y m d) (.vdate y m d)
  | vset (a b : List String) : a.toFinset = b.toFinset → VEquiv (.vset a) (.vset b)
  | vnil : VEquiv (.vlist []) (.vlist [])
  | vcons {x y : Value} {xs ys : List Value} : VEquiv x y →
      VEquiv (.vlist xs) (.vlist ys) → VEquiv (.vlist (x :: xs)) (.vlist (y :: ys))

theorem VEquiv.vlist_forall2 {xs ys : List Value} (h : List.Forall₂ VEquiv xs ys) :
    VEquiv (.vlist xs) (.vlist ys) := by
  induction h with
  | nil => exact VEquiv.vnil
  | cons h1 _ ih2 => exact VEquiv.vcons h1 ih2

/-- Record equality: same field names in order, values `VEquiv`. -/
def RecEquiv : Record → Record → Prop :=
  List.Forall₂ (fun a b => a.1 = b.1 ∧ VEquiv a.2 b.2)

/-! ## Store lemmas -/

/-- The name/width skeleton of a store. -/
def storeShape (st : Store) : List (String × Nat) := st.map (fun e => (e.1, e.2.1))

theorem storeSet_shape (st : Store) (key : String) (v : Int) :
    storeShape (storeSet st key v) = storeShape st := by
  unfold storeShape storeSet
  rw [List.map_map]
  apply List.map_congr_left
  intro e _
  by_cases h : e.1 = key <;> simp [h]

theorem applyDict_cons (st : Store) (p : String × Int) (d : Dict) :
    applyDict st (p :: d) = applyDict (storeSet st p.1 p.2) d := rfl

theorem applyDict_shape (st : Store) (d : Dict) :
    storeShape (applyDict st d) = storeShape st := by
  induction d generalizing st with
  | nil => rfl
  | cons p d ih => rw [applyDict_cons, ih, storeSet_shape]

theorem encodeFields_shape (sch : Schema) (rec : Record) (store : Store) (cache : Cache)
    (store' : Store) (cache' : Cache)
    (h : encodeFields sch rec store cache = some (store', cache')) :
    storeShape store' = storeShape store := by
  induction sch generalizing store cache with
  | nil =>
    simp only [encodeFields, Option.some.injEq, Prod.mk.injEq] at h
    rw [← h.1]
  | cons f rest ih =>
    obtain ⟨n, k⟩ := f
    rw [encodeFields] at h
    rcases hc : List.lookup (n ++ pyStr (lookupValue rec n)) cache with _ | d
    · rw [hc] at h
      rcases hp : pack k n (lookupValue rec n) with _ | d'
      · rw [hp] at h; cases h
      · rw [hp] at h
        rw [ih _ _ h, applyDict_shape]
    · rw [hc] at h
      rw [ih _ _ h, applyDict_shape]

theorem storeBits_length (st : Store) :
    (storeBits st).length = ((storeShape st).map (fun e => e.2)).sum := by
  unfold storeBits storeShape
  rw [List.length_flatten, List.map_map, List.map_map]
  congr 1
  apply List.map_congr_left
  intro e _
  simp [natToBits_length]

theorem totalBits_le (sch : Schema) : totalBits sch ≤ 8 * totalBytes sch := by
  unfold totalBytes
  omega

theorem storeToBytes_length (sch : Schema) (st : Store)
    (hshape : storeShape st = subFieldsAll sch) :
    (storeToBytes sch st).length = totalBytes sch := by
  unfold storeToBytes
  rw [bitsToBytes_length, List.length_append, List.length_replicate, storeBits_length, hshape]
  have h1 : ((subFieldsAll sch).map (fun e => e.2)).sum = totalBits sch := rfl
  rw [h1]
  have h2 := totalBits_le sch
  omega

/-- All entry names of a store, in order. -/
def storeNames (st : Store) : List String := st.map (fun e => e.1)

/-- The width of the (first) entry named `key` (0 if absent). -/
def storeWidth (st : Store) (key : String) : Nat :=
  match st.find? (fun e => e.1 == key) with
  | some e => e.2.1
  | none => 0

/-- A zero-initialized structure over the given sub-fields. -/
def zeroOf (subs : List (String × Nat)) : Store := subs.map (fun e => (e.1, e.2, 0))

/-- Every entry value fits its declared width. -/
def storeBounded (st : Store) : Prop := ∀ e ∈ st, e.2.2 < 2 ^ e.2.1

theorem storeGet_cons (e : String × Nat × Nat) (st : Store) (key : String) :
    storeGet (e :: st) key = if e.1 = key then e.2.2 else storeGet st key := by
  unfold storeGet
  by_cases h : e.1 = key <;> simp [List.find?_cons, h]

theorem storeWidth_cons (e : String × Nat × Nat) (st : Store) (key : String) :
    storeWidth (e :: st) key = if e.1 = key then e.2.1 else storeWidth st key := by
  unfold storeWidth
  by_cases h : e.1 = key <;> simp [List.find?_cons, h]

theorem storeGet_append (s t : Store) (key : String) :
    storeGet (s ++ t) key =
      if key ∈ storeNames s then storeGet s key else storeGet t key := by
  induction s with
  | nil => simp [storeNames]
  | cons e s ih =>
    rw [List.cons_append, storeGet_cons, ih,
      show storeGet (e :: s) key = if e.1 = key then e.2.2 else storeGet s key from
        storeGet_cons e s key]
    simp only [storeNames, List.map_cons, List.mem_cons]
    by_cases h : e.1 = key
    · rw [if_pos h, if_pos (Or.inl h.symm), if_pos h]
    · have h' : ¬ key = e.1 := fun hk => h hk.symm
      rw [if_neg h, if_neg h]
      by_cases h2 : key ∈ List.map (fun e => e.1) s
      · rw [if_pos h2, if_pos (Or.inr h2)]
      · rw [if_neg h2, if_neg (fun hor => hor.elim h' h2)]

theorem storeSet_cons (e : String × Nat × Nat) (st : Store) (key : String) (v : Int) :
    storeSet (e :: st) key v =
      (if e.1 = key then (e.1, e.2.1, (v % (2 : Int) ^ e.2.1).toNat) else e) ::
        storeSet st key v := by
  unfold storeSet
  by_cases h : e.1 = key <;> simp [h]

theorem storeSet_append (s t : Store) (key : String) (v : Int) :
    storeSet (s ++ t) key v = storeSet s key v ++ storeSet t key v := by
  unfold storeSet
  exact List.map_append _ s t

theorem storeSet_of_not_mem (st : Store) (key : String) (v : Int)
    (h : key ∉ storeNames st) : storeSet st key v = st := by
  induction st with
  | nil => rfl
  | cons e st ih =>
    rw [storeSet_cons]
    simp only [storeNames, List.map_cons, List.mem_cons] at h
    push_neg at h
    rw [if_neg (fun hk => h.1 hk.symm), ih h.2]

theorem storeNames_storeSet (st : Store) (key : String) (v : Int) :
    storeNames (storeSet st key v) = storeNames st := by
  have h := storeSet_shape st key v
  unfold storeShape at h
  unfold storeNames
  calc (storeSet st key v).map (fun e => e.1)
      = ((storeSet st key v).map (fun e => (e.1, e.2.1))).map (fun e => e.1) := by
        rw [List.map_map]; rfl
    _ = (st.map (fun e => (e.1, e.2.1))).map (fun e => e.1) := by rw [h]
    _ = st.map (fun e => e.1) := by rw [List.map_map]; rfl

theorem applyDict_append (s t : Store) (d : Dict) :
    applyDict (s ++ t) d = applyDict s d ++ applyDict t d := by
  induction d generalizing s t with
  | nil => rfl
  | cons p d ih => rw [applyDict_cons, storeSet_append, ih, applyDict_cons, applyDict_cons]

theorem applyDict_of_disjoint (st : Store) (d : Dict)
    (h : ∀ p ∈ d, p.1 ∉ storeNames st) : applyDict st d = st := by
  induction d with
  | nil => rfl
  | cons p d ih =>
    rw [applyDict_cons, storeSet_of_not_mem st p.1 p.2 (h p (by simp))]
    exact ih (fun q hq => h q (by simp [hq]))

theorem applyDict_append_dict (st : Store) (d1 d2 : Dict) :
    applyDict st (d1 ++ d2) = applyDict (applyDict st d1) d2 := by
  unfold applyDict
  exact List.foldl_append _ _ d1 d2

theorem storeNames_applyDict (st : Store) (d : Dict) :
    storeNames (applyDict st d) = storeNames st := by
  induction d generalizing st with
  | nil => rfl
  | cons p d ih => rw [applyDict_cons, ih, storeNames_storeSet]

theorem storeGet_storeSet_ne (st : Store) (key key' : String) (v : Int)
    (h : key' ≠ key) : storeGet (storeSet st key v) key' = storeGet st key' := by
  induction st with
  | nil => rfl
  | cons e st ih =>
    rw [storeSet_cons, storeGet_cons, storeGet_cons]
    by_cases he : e.1 = key
    · rw [if_pos he]
      simp only
      rw [if_neg (by rw [he]; exact fun hk => h hk.symm), if_neg (by rw [he]; exact fun hk => h hk.symm)]
      exact ih
    · rw [if_neg he]
      by_cases he' : e.1 = key' <;> simp [he', ih]

/-- The width of an entry is a function of the store's shape. -/
def shapeWidth (l : List (String × Nat)) (key : String) : Nat :=
  match l.find? (fun e => e.1 == key) with
  | some e => e.2
  | none => 0

theorem shapeWidth_cons (e : String × Nat) (l : List (String × Nat)) (key : String) :
    shapeWidth (e :: l) key = if e.1 = key then e.2 else shapeWidth l key := by
  unfold shapeWidth
  by_cases h : e.1 = key <;> simp [List.find?_cons, h]

theorem storeWidth_eq_shape (st : Store) (key : String) :
    storeWidth st key = shapeWidth (storeShape st) key := by
  induction st with
  | nil => rfl
  | cons e st ih =>
    have hshape : storeShape (e :: st) = (e.1, e.2.1) :: storeShape st := rfl
    rw [storeWidth_cons, hshape, shapeWidth_cons, ih]

theorem storeWidth_storeSet (st : Store) (key key' : String) (v : Int) :
    storeWidth (storeSet st key v) key' = storeWidth st key' := by
  rw [storeWidth_eq_shape, storeWidth_eq_shape, storeSet_shape]

theorem storeGet_storeSet_self (st : Store) (key : String) (v : Int)
    (h : key ∈ storeNames st) :
    storeGet (storeSet st key v) key = (v % (2 : Int) ^ storeWidth st key).toNat := by
  induction st with
  | nil => simp [storeNames] at h
  | cons e st ih =>
    rw [storeSet_cons, storeGet_cons, storeWidth_cons]
    by_cases he : e.1 = key
    · simp [he]
    · rw [if_neg he, if_neg he, if_neg he]
      refine ih ?_
      simp only [storeNames, List.map_cons, List.mem_cons] at h
      rcases h with h | h
      · exact absurd h.symm he
      · exact h

theorem storeGet_applyDict_not_mem (st : Store) (d : Dict) (key : String)
    (h : key ∉ d.map (fun p => p.1)) :
    storeGet (applyDict st d) key = storeGet st key := by
  induction d generalizing st with
  | nil => rfl
  | cons p d ih =>
    rw [applyDict_cons]
    simp only [List.map_cons, List.mem_cons] at h
    push_neg at h
    rw [ih _ h.2, storeGet_storeSet_ne st p.1 key p.2 (fun hk => h.1 hk)]

theorem storeWidth_applyDict (st : Store) (d : Dict) (key : String) :
    storeWidth (applyDict st d) key = storeWidth st key := by
  rw [storeWidth_eq_shape, storeWidth_eq_shape, applyDict_shape]

theorem storeGet_applyDict_mem (st : Store) (d : Dict) (key : String) (v : Int)
    (hmem : (key, v) ∈ d) (hnd : (d.map (fun p => p.1)).Nodup)
    (hkey : key ∈ storeNames st) :
    storeGet (applyDict st d) key = (v % (2 : Int) ^ storeWidth st key).toNat := by
  induction d generalizing st with
  | nil => simp at hmem
  | cons p d ih =>
    rw [applyDict_cons]
    simp only [List.map_cons, List.nodup_cons] at hnd
    rcases List.mem_cons.mp hmem with heq | hmem'
    · subst heq
      have hk : key ∉ d.map (fun p => p.1) := by simpa using hnd.1
      rw [storeGet_applyDict_not_mem _ _ _ hk]
      exact storeGet_storeSet_self st key v hkey
    · have hne : p.1 ≠ key := by
        intro hk
        exact hnd.1 (by rw [hk]; exact List.mem_map_of_mem _ hmem')
      rw [ih _ hmem' hnd.2 (by rw [storeNames_storeSet]; exact hkey), storeWidth_storeSet]

theorem zeroOf_cons (e : String × Nat) (subs : List (String × Nat)) :
    zeroOf (e :: subs) = (e.1, e.2, 0) :: zeroOf subs := rfl

theorem zeroOf_append (s t : List (String × Nat)) :
    zeroOf (s ++ t) = zeroOf s ++ zeroOf t := List.map_append _ s t

theorem storeNames_zeroOf (subs : List (String × Nat)) :
    storeNames (zeroOf subs) = subs.map (fun e => e.1) := by
  unfold storeNames zeroOf
  rw [List.map_map]
  rfl

theorem storeShape_zeroOf (subs : List (String × Nat)) :
    storeShape (zeroOf subs) = subs := by
  unfold storeShape zeroOf
  rw [List.map_map]
  conv_rhs => rw [← List.map_id subs]
  apply List.map_congr_left
  intro e _
  rfl

theorem storeGet_zeroOf (subs : List (String × Nat)) (key : String) :
    storeGet (zeroOf subs) key = 0 := by
  induction subs with
  | nil => rfl
  | cons e subs ih =>
    rw [zeroOf_cons, storeGet_cons]
    by_cases h : e.1 = key <;> simp [h, ih]

theorem storeBounded_storeSet (st : Store) (key : String) (v : Int)
    (h : storeBounded st) : storeBounded (storeSet st key v) := by
  intro e he
  unfold storeSet at he
  rcases List.mem_map.mp he with ⟨e0, he0, heq⟩
  by_cases hk : e0.1 = key
  · rw [if_pos hk] at heq
    rw [← heq]
    simp only
    have hpos : (0 : Int) < 2 ^ e0.2.1 := by positivity
    have h1 := Int.emod_nonneg v (ne_of_gt hpos)
    have h2 := Int.emod_lt_of_pos v hpos
    have hcast : ((2 : Int) ^ e0.2.1) = ((2 ^ e0.2.1 : Nat) : Int) := by push_cast; ring
    rw [hcast] at h2
    omega
  · rw [if_neg hk] at heq
    rw [← heq]
    exact h e0 he0

theorem storeBounded_applyDict (st : Store) (d : Dict)
    (h : storeBounded st) : storeBounded (applyDict st d) := by
  induction d generalizing st with
  | nil => exact h
  | cons p d ih => exact ih _ (storeBounded_storeSet st p.1 p.2 h)

theorem storeBounded_zeroOf (subs : List (String × Nat)) : storeBounded (zeroOf subs) := by
  intro e he
  rcases List.mem_map.mp he with ⟨e0, _, heq⟩
  rw [← heq]
  positivity

theorem mkStore_storeShape (st : Store) :
    mkStore (storeShape st) (st.map (fun e => e.2.2)) = st := by
  induction st with
  | nil => rfl
  | cons e st ih =>
    show (e.1, e.2.1, e.2.2) :: mkStore (storeShape st) (st.map (fun e => e.2.2)) = e :: st
    rw [ih]

theorem storeBits_zipWith (st : Store) :
    storeBits st = (List.zipWith natToBits (st.map (fun e => e.2.1))
      (st.map (fun e => e.2.2))).flatten := by
  unfold storeBits
  congr 1
  induction st with
  | nil => rfl
  | cons e st ih => simp only [List.map_cons, List.zipWith_cons_cons, ih]

/-- Parsing the byte image of a well-shaped, bounded structure recovers
every sub-field value. -/
theorem parse_storeToBytes (sch : Schema) (st : Store)
    (hshape : storeShape st = subFieldsAll sch)
    (hb : storeBounded st) :
    splitWidths ((subFieldsAll sch).map (fun e => e.2)) (bytesToBits (storeToBytes sch st)) =
      st.map (fun e => e.2.2) := by
  unfold storeToBytes
  rw [bytesToBits_bitsToBytes _ ?dvd]
  case dvd =>
    rw [List.length_append, List.length_replicate, storeBits_length, hshape]
    have h1 : ((subFieldsAll sch).map (fun e => e.2)).sum = totalBits sch := rfl
    rw [h1]
    have h2 := totalBits_le sch
    exact ⟨totalBytes sch, by omega⟩
  rw [storeBits_zipWith]
  have hws : (subFieldsAll sch).map (fun e => e.2) = st.map (fun e => e.2.1) := by
    rw [← hshape]
    unfold storeShape
    rw [List.map_map]
    rfl
  rw [hws]
  apply splitWidths_append
  · simp
  · intro p hp
    rw [List.zip_map'] at hp
    rcases List.mem_map.mp hp with ⟨e, he, heq⟩
    rw [← heq]
    exact hb e he

/-- `decode` on the byte image of a well-shaped bounded structure rebuilds
exactly that structure and unpacks every field from it. -/
theorem decode_storeToBytes (sch : Schema) (st0 : EngineState) (st : Store)
    (hshape : storeShape st = subFieldsAll sch)
    (hb : storeBounded st) :
    decode sch st0 (storeToBytes sch st) =
      (unpackFields sch st).map (fun r => (r, ⟨st, st0.cache⟩)) := by
  unfold decode
  rw [if_neg (by rw [storeToBytes_length sch st hshape]; omega)]
  rw [storeToBytes_length sch st hshape]
  simp only [Nat.sub_self, List.replicate_zero, List.append_nil]
  rw [parse_storeToBytes sch st hshape hb, ← hshape, mkStore_storeShape]

/-! ## Per-kind helper lemmas -/

theorem pyIndex_get (cs : List String) (c : String) :
    ∀ i, pyIndex cs c = some i → cs.get? i = some c := by
  induction cs with
  | nil => intro i h; cases h
  | cons a rest ih =>
    intro i h
    unfold pyIndex at h
    by_cases ha : a = c
    · rw [if_pos ha] at h
      cases h
      simpa using ha
    · rw [if_neg ha] at h
      rcases Option.map_eq_some'.mp h with ⟨j, hj, hji⟩
      rw [← hji]
      simpa using ih j hj

theorem pyIndex_lt (cs : List String) (c : String) (i : Nat)
    (h : pyIndex cs c = some i) : i < cs.length :=
  List.get?_eq_some.mp (pyIndex_get cs c i h) |>.1

theorem pyIndex_of_mem (cs : List String) (c : String) (h : c ∈ cs) :
    ∃ i, pyIndex cs c = some i := by
  induction cs with
  | nil => cases h
  | cons a rest ih =>
    unfold pyIndex
    by_cases ha : a = c
    · exact ⟨0, by rw [if_pos ha]⟩
    · rcases List.mem_cons.mp h with hc | hc
      · exact absurd hc.symm ha
      · rcases ih hc with ⟨j, hj⟩
        exact ⟨j + 1, by rw [if_neg ha, hj]; rfl⟩

theorem lastIndexAux_get (cs : List String) (c : String) :
    ∀ base i, lastIndexAux cs c base = some i → base ≤ i ∧ cs.get? (i - base) = some c := by
  induction cs with
  | nil => intro base i h; cases h
  | cons a rest ih =>
    intro base i h
    unfold lastIndexAux at h
    rcases hr : lastIndexAux rest c (base + 1) with _ | j
    · rw [hr] at h
      by_cases ha : a = c
      · rw [if_pos ha] at h
        cases h
        simp [ha, Nat.sub_self]
      · rw [if_neg ha] at h; cases h
    · rw [hr] at h
      cases h
      have := ih (base + 1) i hr
      refine ⟨by omega, ?_⟩
      have hidx : i - base = (i - (base + 1)) + 1 := by omega
      rw [hidx]
      simpa using this.2

theorem choiceMapping_get (cs : List String) (c : String) (i : Nat)
    (h : choiceMapping cs c = some i) : cs.get? i = some c := by
  have := lastIndexAux_get cs c 0 i h
  simpa using this.2

theorem choiceMapping_lt (cs : List String) (c : String) (i : Nat)
    (h : choiceMapping cs c = some i) : i < cs.length :=
  List.get?_eq_some.mp (choiceMapping_get cs c i h) |>.1

theorem choiceMapping_of_mem (cs : List String) (c : String) (h : c ∈ cs) :
    ∃ i, choiceMapping cs c = some i := by
  suffices hs : ∀ base, ∃ i, lastIndexAux cs c base = some i from hs 0
  intro base
  induction cs generalizing base with
  | nil => cases h
  | cons a rest ih =>
    unfold lastIndexAux
    rcases List.mem_cons.mp h with hc | hc
    · rcases hr : lastIndexAux rest c (base + 1) with _ | j
      · exact ⟨base, by rw [if_pos hc.symm]⟩
      · exact ⟨j, rfl⟩
    · rcases ih hc (base + 1) with ⟨j, hj⟩
      exact ⟨j, by rw [hj]⟩

theorem choiceMapping_inj (cs : List String) (a b : String) (i : Nat)
    (ha : choiceMapping cs a = some i) (hb : choiceMapping cs b = some i) : a = b := by
  have h1 := choiceMapping_get cs a i ha
  have h2 := choiceMapping_get cs b i hb
  rw [h1] at h2
  exact (Option.some.injEq _ _ ▸ h2).symm ▸ rfl

theorem hexVal_of_isHexDigit (c : Char) (h : isHexDigit c = true) :
    ∃ x, hexVal c = some x ∧ x < 16 := by
  unfold isHexDigit isLowerHex at h
  unfold hexVal
  simp only [Bool.or_eq_true, Bool.and_eq_true, decide_eq_true_eq] at h
  rcases h with (h | h) | h
  · exact ⟨c.toNat - 48, by rw [if_pos (by omega)], by omega⟩
  · refine ⟨c.toNat - 87, ?_, by omega⟩
    rw [if_neg (by omega), if_pos (by omega)]
  · refine ⟨c.toNat - 55, ?_, by omega⟩
    rw [if_neg (by omega), if_neg (by omega), if_pos (by omega)]

theorem isHexDigit_of_isLowerHex (c : Char) (h : isLowerHex c = true) : isHexDigit c = true := by
  unfold isHexDigit
  rw [h]
  rfl

/-- Python `str.lower` on one character, restricted to the hex alphabet. -/
def lowerHexChar (c : Char) : Char :=
  if 65 ≤ c.toNat ∧ c.toNat ≤ 70 then Char.ofNat (c.toNat + 32) else c

theorem lowerHexChar_of_isLowerHex (c : Char) (h : isLowerHex c = true) :
    lowerHexChar c = c := by
  unfold isLowerHex at h
  simp only [Bool.or_eq_true, Bool.and_eq_true, decide_eq_true_eq] at h
  unfold lowerHexChar
  rw [if_neg (by omega)]

theorem char_toNat_ofNat (n : Nat) (h : n < 128) : (Char.ofNat n).toNat = n := by
  have hv : n.isValidChar := Or.inl (by omega)
  rw [Char.ofNat, dif_pos hv]
  rfl

theorem char_eq_of_toNat_eq (a b : Char) (h : a.toNat = b.toNat) : a = b := by
  have hab := Char.ofNat_toNat a
  rw [h, Char.ofNat_toNat] at hab
  exact hab.symm

theorem hexChar_hexVal (c : Char) (x : Nat) (h : hexVal c = some x) :
    hexChar x = lowerHexChar c := by
  unfold hexVal at h
  unfold hexChar lowerHexChar
  by_cases h1 : 48 ≤ c.toNat ∧ c.toNat ≤ 57
  · rw [if_pos h1] at h
    cases h
    rw [if_pos (by omega), if_neg (by omega)]
    apply char_eq_of_toNat_eq
    rw [char_toNat_ofNat _ (by omega)]
    omega
  · rw [if_neg h1] at h
    by_cases h2 : 97 ≤ c.toNat ∧ c.toNat ≤ 102
    · rw [if_pos h2] at h
      cases h
      rw [if_neg (by omega), if_neg (by omega)]
      apply char_eq_of_toNat_eq
      rw [char_toNat_ofNat _ (by omega)]
      omega
    · rw [if_neg h2] at h
      by_cases h3 : 65 ≤ c.toNat ∧ c.toNat ≤ 70
      · rw [if_pos h3] at h
        cases h
        rw [if_neg (by omega), if_pos (by omega)]
        apply char_eq_of_toNat_eq
        rw [char_toNat_ofNat _ (by omega), char_toNat_ofNat _ (by omega)]
        omega
      · rw [if_neg h3] at h
        cases h

theorem hexPairs_spec : ∀ (cs : List Char), (∀ c ∈ cs, isHexDigit c = true) →
    2 ∣ cs.length →
    ∃ bs, hexPairs cs = some bs ∧ cs.length = 2 * bs.length ∧ (∀ b ∈ bs, b < 256) ∧
      bs.flatMap byteHexChars = cs.map lowerHexChar
  | [], _, _ => ⟨[], rfl, rfl, by simp, rfl⟩
  | [c], _, hdvd => by simp at hdvd
  | a :: b :: rest, h, hdvd => by
      rcases hexVal_of_isHexDigit a (h a (by simp)) with ⟨x, hx, hxlt⟩
      rcases hexVal_of_isHexDigit b (h b (by simp)) with ⟨y, hy, hylt⟩
      rcases hexPairs_spec rest (fun c hc => h c (by simp [hc]))
        (by simp at hdvd ⊢; omega) with ⟨bs, h1, h2, h3, h4⟩
      refine ⟨(16 * x + y) :: bs, ?_, by simp [h2]; ring, ?_, ?_⟩
      · unfold hexPairs
        rw [hx, hy, h1]
        rfl
      · intro v hv
        rcases List.mem_cons.mp hv with hv | hv
        · omega
        · exact h3 v hv
      · simp only [List.flatMap_cons, List.map_cons, h4]
        unfold byteHexChars
        have hdiv : (16 * x + y) / 16 = x := by omega
        have hmod : (16 * x + y) % 16 = y := by omega
        rw [hdiv, hmod, hexChar_hexVal a x hx, hexChar_hexVal b y hy]
        rfl

theorem bytesBE_snoc (bs : List Nat) (b : Nat) :
    bytesBE (bs ++ [b]) = 256 * bytesBE bs + b := by
  unfold bytesBE
  rw [List.foldl_append]
  rfl

theorem bytesBE_lt (bs : List Nat) (h : ∀ b ∈ bs, b < 256) :
    bytesBE bs < 2 ^ (8 * bs.length) := by
  induction bs using List.reverseRecOn with
  | nil => simp [bytesBE]
  | append_singleton xs b ih =>
    rw [bytesBE_snoc]
    have h1 : bytesBE xs < 2 ^ (8 * xs.length) := ih (fun c hc => h c (by simp [hc]))
    have h2 : b < 256 := h b (by simp)
    have h3 : 2 ^ (8 * (xs ++ [b]).length) = 256 * 2 ^ (8 * xs.length) := by
      simp only [List.length_append, List.length_singleton]
      rw [show 8 * (xs.length + 1) = 8 * xs.length + 8 by ring, pow_add]
      ring
    rw [h3]
    omega

theorem byteSplit_bytesBE (bs : List Nat) (h : ∀ b ∈ bs, b < 256) :
    byteSplit bs.length (bytesBE bs) = bs := by
  induction bs using List.reverseRecOn with
  | nil => rfl
  | append_singleton xs b ih =>
    rw [bytesBE_snoc]
    simp only [List.length_append, List.length_singleton]
    rw [byteSplit]
    have h2 : b < 256 := h b (by simp)
    have hdiv : (256 * bytesBE xs + b) / 256 = bytesBE xs := by omega
    have hmod : (256 * bytesBE xs + b) % 256 = b := by omega
    rw [hdiv, hmod, ih (fun c hc => h c (by simp [hc]))]

theorem daysInMonth_le (y m : Nat) : daysInMonth y m ≤ 31 := by
  unfold daysInMonth
  split_ifs <;> omega

theorem isValidDate_bounds (y m d : Nat) (h : isValidDate y m d = true) :
    1 ≤ y ∧ y ≤ 9999 ∧ 1 ≤ m ∧ m ≤ 12 ∧ 1 ≤ d ∧ d ≤ 31 := by
  unfold isValidDate at h
  simp only [Bool.and_eq_true, decide_eq_true_eq] at h
  have := daysInMonth_le y m
  omega

/-! ## The `ReadsD` store characterization

After one encode from a zeroed structure, the value of each sub-field of a
field is determined by the field's pack dict: written sub-fields hold their
dict value truncated to the declared width, unwritten ones hold 0.  Stating
the unpack half of the per-field round trip against any store with this
property lets the same lemma serve both the isolated field store and the
full schema store. -/

/-- `S` reads, on the sub-fields `subs`, like a zeroed structure with the
dict `d` applied. -/
def ReadsD (d : Dict) (subs : List (String × Nat)) (S : Store) : Prop :=
  ∀ key w, (key, w) ∈ subs →
    ((∀ v : Int, (key, v) ∉ d) → storeGet S key = 0) ∧
    (∀ v : Int, (key, v) ∈ d → storeGet S key = (v % (2 : Int) ^ w).toNat)

theorem shapeWidth_of_mem (subs : List (String × Nat)) (key : String) (w : Nat)
    (hnd : (subs.map (fun e => e.1)).Nodup) (hmem : (key, w) ∈ subs) :
    shapeWidth subs key = w := by
  induction subs with
  | nil => cases hmem
  | cons e subs ih =>
    rw [shapeWidth_cons]
    simp only [List.map_cons, List.nodup_cons] at hnd
    rcases List.mem_cons.mp hmem with heq | hmem'
    · rw [← heq]
      simp
    · have hne : e.1 ≠ key := by
        intro hk
        exact hnd.1 (by rw [hk]; exact List.mem_map_of_mem _ hmem')
      rw [if_neg hne]
      exact ih hnd.2 hmem'

/-- The isolated field store `applyDict (zeroOf subs) d` satisfies `ReadsD`. -/
theorem readsD_dictStore (d : Dict) (subs : List (String × Nat))
    (hnd : (subs.map (fun e => e.1)).Nodup)
    (hdnd : (d.map (fun p => p.1)).Nodup)
    (hsub : ∀ p ∈ d, p.1 ∈ subs.map (fun e => e.1)) :
    ReadsD d subs (applyDict (zeroOf subs) d) := by
  intro key w hmem
  constructor
  · intro hnone
    rw [storeGet_applyDict_not_mem _ _ _ ?h, storeGet_zeroOf]
    case h =>
      intro hk
      rcases List.mem_map.mp hk with ⟨p, hp, hkey⟩
      exact hnone p.2 (by rw [← hkey]; exact hp)
  · intro v hv
    rw [storeGet_applyDict_mem _ _ _ _ hv hdnd
      (by rw [storeNames_zeroOf]; exact List.mem_map_of_mem _ hmem)]
    rw [storeWidth_eq_shape, storeShape_zeroOf, shapeWidth_of_mem subs key w hnd hmem]

/-- Keys of entries in a flattened list of dicts belong to the names of one
of the matching segments. -/
theorem flatten_key_mem (parts : List Dict) (segs : List (List (String × Nat)))
    (hf : List.Forall₂ (fun (dd : Dict) (seg : List (String × Nat)) =>
        ∀ p ∈ dd, p.1 ∈ seg.map (fun e => e.1)) parts segs)
    (key : String) (v : Int) (h : (key, v) ∈ parts.flatten) :
    ∃ seg ∈ segs, key ∈ seg.map (fun e => e.1) := by
  induction hf with
  | nil => simp at h
  | @cons d0 s0 parts' segs' hpd _ ih =>
    rw [List.flatten_cons] at h
    rcases List.mem_append.mp h with h0 | hrest
    · exact ⟨s0, by simp, hpd _ h0⟩
    · rcases ih hrest with ⟨seg, hseg, hk⟩
      exact ⟨seg, by simp [hseg], hk⟩

/-- An entry of a flattened list of per-segment dicts whose key belongs to
segment `j`'s names lies in segment `j`'s dict (segments' names are
pairwise disjoint). -/
theorem dict_localize (parts : List Dict) (segs : List (List (String × Nat)))
    (hf : List.Forall₂ (fun (dd : Dict) (seg : List (String × Nat)) =>
        ∀ p ∈ dd, p.1 ∈ seg.map (fun e => e.1)) parts segs)
    (hdisj : List.Pairwise (fun s t : List (String × Nat) =>
        List.Disjoint (s.map (fun e => e.1)) (t.map (fun e => e.1))) segs)
    (dj : Dict) (segj : List (String × Nat))
    (hj : (dj, segj) ∈ parts.zip segs)
    (key : String) (hkey : key ∈ segj.map (fun e => e.1)) (v : Int) :
    (key, v) ∈ parts.flatten ↔ (key, v) ∈ dj := by
  induction hf with
  | nil => simp at hj
  | @cons d0 s0 parts' segs' hpd hrest ih =>
    rw [List.pairwise_cons] at hdisj
    rw [List.zip_cons_cons] at hj
    rw [List.flatten_cons]
    rcases List.mem_cons.mp hj with heq | htail
    · have hd0 : dj = d0 := congrArg Prod.fst heq
      have hs0 : segj = s0 := congrArg Prod.snd heq
      subst hd0
      subst hs0
      constructor
      · intro hmem
        rcases List.mem_append.mp hmem with h0 | hr
        · exact h0
        · rcases flatten_key_mem parts' segs' hrest key v hr with ⟨seg, hseg, hk⟩
          exact absurd hkey (fun hk0 => hdisj.1 seg hseg hk0 hk)
      · exact List.mem_append_left _
    · have hsegj : segj ∈ segs' := (List.mem_zip htail).2
      constructor
      · intro hmem
        rcases List.mem_append.mp hmem with h0 | hr
        · exact absurd (hpd _ h0) (fun hk0 => hdisj.1 segj hsegj hk0 hkey)
        · exact (ih hdisj.2 htail).mp hr
      · intro hmem
        exact List.mem_append_right _ ((ih hdisj.2 htail).mpr hmem)

/-- `ReadsD` restricts from a dict/sub-field list to a matching local pair. -/
theorem readsD_restrict (d : Dict) (subs : List (String × Nat)) (S : Store)
    (hS : ReadsD d subs S)
    (dloc : Dict) (segloc : List (String × Nat))
    (hsubset : ∀ e ∈ segloc, e ∈ subs)
    (hmemiff : ∀ key, key ∈ segloc.map (fun e => e.1) →
      ∀ v : Int, ((key, v) ∈ d ↔ (key, v) ∈ dloc)) :
    ReadsD dloc segloc S := by
  intro key w hmem
  have h := hS key w (hsubset _ hmem)
  have hiff := hmemiff key (List.mem_map_of_mem _ hmem)
  constructor
  · intro hnone
    exact h.1 (fun v hv => hnone v ((hiff v).mp hv))
  · intro v hv
    exact h.2 v ((hiff v).mpr hv)

/-- The statement of the per-field round trip: a valid value packs to a
dict whose keys are the field's own sub-field names, without duplicates,
and unpacking any store that reads like that dict over a zeroed structure
returns an equivalent value. -/
def FieldOK (k : FieldKind) : Prop :=
  ∀ (name : String) (v : Value),
    ((subFields k name).map (fun e => e.1)).Nodup →
    validValue k v = true →
    ∃ d, pack k name v = some d ∧
      (∀ p ∈ d, p.1 ∈ (subFields k name).map (fun e => e.1)) ∧
      (d.map (fun p => p.1)).Nodup ∧
      ∀ S, ReadsD d (subFields k name) S →
        ∃ v', unpack k name S = some v' ∧ VEquiv v v'

theorem fieldOK_number (maxValue : Nat) : FieldOK (.number maxValue) := by
  intro name v hnd hv
  cases v with
  | vint n =>
    have hv' : (decide (0 ≤ n) && decide (pyBitLength n ≤ bitLen maxValue)) = true := hv
    simp only [Bool.and_eq_true, decide_eq_true_eq] at hv'
    have hpack : pack (.number maxValue) name (.vint n) =
        some [(prefixName name "num", n)] := by
      show (if pyBitLength n ≤ bitLen maxValue then
          some [(prefixName name "num", n)] else none) = _
      rw [if_pos hv'.2]
    refine ⟨[(prefixName name "num", n)], hpack, ?_, by simp, ?_⟩
    · intro p hp
      simp only [List.mem_singleton] at hp
      subst hp
      simp [subFields]
    · intro S hS
      have hread := (hS (prefixName name "num") (bitLen maxValue)
        (by simp [subFields])).2 n (by simp)
      have hlt : n < (2 : Int) ^ bitLen maxValue := by
        have h1 : n.natAbs < 2 ^ bitLen maxValue :=
          lt_of_lt_of_le (lt_two_pow_bitLen n.natAbs)
            (Nat.pow_le_pow_right (by norm_num) hv'.2)
        calc n = (n.natAbs : Int) := (Int.natAbs_of_nonneg hv'.1).symm
          _ < ((2 ^ bitLen maxValue : Nat) : Int) := by exact_mod_cast h1
          _ = (2 : Int) ^ bitLen maxValue := by push_cast; ring
      refine ⟨.vint n, ?_, VEquiv.vint n⟩
      show some (Value.vint ((storeGet S (prefixName name "num") : Nat) : Int)) = _
      rw [hread, Int.emod_eq_of_lt hv'.1 hlt, Int.toNat_of_nonneg hv'.1]
  | vbool b => exact Bool.noConfusion hv
  | vhex s => exact Bool.noConfusion hv
  | vchoice s => exact Bool.noConfusion hv
  | vset s => exact Bool.noConfusion hv
  | vdate y m d => exact Bool.noConfusion hv
  | vlist vs => exact Bool.noConfusion hv
  | vnone => exact Bool.noConfusion hv

theorem fieldOK_boolean : FieldOK .boolean := by
  intro name v hnd hv
  cases v with
  | vbool b =>
    refine ⟨[(prefixName name "bool", if b then 1 else 0)], rfl, ?_, by simp, ?_⟩
    · intro p hp
      simp only [List.mem_singleton] at hp
      subst hp
      simp [subFields]
    · intro S hS
      have hread := (hS (prefixName name "bool") 1 (by simp [subFields])).2
        (if b then 1 else 0) (by simp)
      refine ⟨.vbool b, ?_, VEquiv.vbool b⟩
      show some (Value.vbool (storeGet S (prefixName name "bool") != 0)) = _
      rw [hread]
      cases b <;> rfl
  | vint n => exact Bool.noConfusion hv
  | vhex s => exact Bool.noConfusion hv
  | vchoice s => exact Bool.noConfusion hv
  | vset s => exact Bool.noConfusion hv
  | vdate y m d => exact Bool.noConfusion hv
  | vlist vs => exact Bool.noConfusion hv
  | vnone => exact Bool.noConfusion hv

theorem fieldOK_choice (choices : List String) : FieldOK (.choice choices) := by
  intro name v hnd hv
  cases v with
  | vchoice c =>
    have hmem : choices.contains c = true := hv
    have hc : c ∈ choices := by simpa using hmem
    rcases pyIndex_of_mem choices c hc with ⟨i, hi⟩
    have hpack : pack (.choice choices) name (.vchoice c) =
        some [(prefixName name "cho", (i : Int))] := by
      show (pyIndex choices c).map (fun j => [(prefixName name "cho", (j : Int))]) = _
      rw [hi]
      rfl
    refine ⟨_, hpack, ?_, by simp, ?_⟩
    · intro p hp
      simp only [List.mem_singleton] at hp
      subst hp
      simp [subFields]
    · intro S hS
      have hread := (hS (prefixName name "cho") (bitLen choices.length)
        (by simp [subFields])).2 (i : Int) (by simp)
      have hilt : i < choices.length := pyIndex_lt choices c i hi
      have hilt2 : (i : Int) < (2 : Int) ^ bitLen choices.length := by
        have h1 : i < 2 ^ bitLen choices.length :=
          lt_trans hilt (lt_two_pow_bitLen choices.length)
        calc (i : Int) < ((2 ^ bitLen choices.length : Nat) : Int) := by exact_mod_cast h1
          _ = (2 : Int) ^ bitLen choices.length := by push_cast; ring
      have hmask : storeGet S (prefixName name "cho") = i := by
        rw [hread, Int.emod_eq_of_lt (by positivity) hilt2]
        simp
      refine ⟨.vchoice c, ?_, VEquiv.vchoice c⟩
      show (choices.get? (storeGet S (prefixName name "cho"))).map Value.vchoice = _
      rw [hmask, pyIndex_get choices c i hi]
      rfl
  | vint n => exact Bool.noConfusion hv
  | vbool b => exact Bool.noConfusion hv
  | vhex s => exact Bool.noConfusion hv
  | vset s => exact Bool.noConfusion hv
  | vdate y m d => exact Bool.noConfusion hv
  | vlist vs => exact Bool.noConfusion hv
  | vnone => exact Bool.noConfusion hv

theorem fieldOK_hex (length : Nat) : FieldOK (.hex length) := by
  intro name v hnd hv
  cases v with
  | vhex s =>
    have hv' : (decide (s.length = 2 * (length / 2)) && s.toList.all isLowerHex) = true := hv
    simp only [Bool.and_eq_true, decide_eq_true_eq, List.all_eq_true] at hv'
    obtain ⟨hlen, hlower⟩ := hv'
    have hdig : ∀ c ∈ s.toList, isHexDigit c = true :=
      fun c hc => isHexDigit_of_isLowerHex c (hlower c hc)
    have hslen : s.toList.length = s.length := rfl
    rcases hexPairs_spec s.toList hdig (by rw [hslen, hlen]; exact ⟨length / 2, by ring⟩)
      with ⟨bs, hbs, hblen, hblt, hbhex⟩
    have hpack : pack (.hex length) name (.vhex s) =
        some [(prefixName name "hex", (bytesBE bs : Int))] := by
      show (if s.length = 2 * (length / 2) then (hexPairs s.toList).map _ else none) = _
      rw [if_pos hlen, hbs]
      rfl
    refine ⟨_, hpack, ?_, by simp, ?_⟩
    · intro p hp
      simp only [List.mem_singleton] at hp
      subst hp
      simp [subFields]
    · intro S hS
      have hread := (hS (prefixName name "hex") (8 * (length / 2))
        (by simp [subFields])).2 (bytesBE bs) (by simp)
      have hbslen : bs.length = length / 2 := by
        rw [hslen] at hblen
        omega
      have hblt2 : (bytesBE bs : Int) < (2 : Int) ^ (8 * (length / 2)) := by
        have h1 : bytesBE bs < 2 ^ (8 * (length / 2)) := by
          rw [← hbslen]
          exact bytesBE_lt bs hblt
        calc (bytesBE bs : Int) < ((2 ^ (8 * (length / 2)) : Nat) : Int) := by exact_mod_cast h1
          _ = (2 : Int) ^ (8 * (length / 2)) := by push_cast; ring
      have hmask : storeGet S (prefixName name "hex") = bytesBE bs := by
        rw [hread, Int.emod_eq_of_lt (by positivity) hblt2]
        simp
      refine ⟨.vhex (String.mk (s.toList.map lowerHexChar)), ?_, ?_⟩
      · show some (Value.vhex (String.mk
            ((byteSplit (length / 2) (storeGet S (prefixName name "hex"))).flatMap
              byteHexChars))) = _
        rw [hmask, ← hbslen, byteSplit_bytesBE bs hblt, hbhex]
      · have hmap : s.toList.map lowerHexChar = s.toList := by
          calc s.toList.map lowerHexChar
              = s.toList.map id :=
                List.map_congr_left (fun c hc => lowerHexChar_of_isLowerHex c (hlower c hc))
            _ = s.toList := List.map_id _
        rw [hmap]
        exact VEquiv.vhex s
  | vint n => exact Bool.noConfusion hv
  | vbool b => exact Bool.noConfusion hv
  | vchoice c => exact Bool.noConfusion hv
  | vset s => exact Bool.noConfusion hv
  | vdate y m d => exact Bool.noConfusion hv
  | vlist vs => exact Bool.noConfusion hv
  | vnone => exact Bool.noConfusion hv

theorem fieldOK_date (minYear maxYear : Nat) : FieldOK (.date minYear maxYear) := by
  intro name v hnd hv
  cases v with
  | vdate y m d =>
    have hv' : (isValidDate y m d && decide (2000 ≤ y) &&
        decide (y - 2000 < 2 ^ bitLen (maxYear - minYear))) = true := hv
    simp only [Bool.and_eq_true, decide_eq_true_eq] at hv'
    obtain ⟨⟨hvd, hy⟩, hwin⟩ := hv'
    have hb := isValidDate_bounds y m d hvd
    have hpack : pack (.date minYear maxYear) name (.vdate y m d) =
        some [(prefixName name "year", (y : Int) - 2000),
              (prefixName name "month", (m : Int)), (prefixName name "day", (d : Int))] := by
      show (if isValidDate y m d then _ else none) = _
      rw [if_pos hvd]
    refine ⟨_, hpack, ?_, ?_, ?_⟩
    · intro p hp
      simp only [List.mem_cons, List.not_mem_nil, or_false] at hp
      rcases hp with hp | hp | hp <;> (subst hp; simp [subFields])
    · exact hnd
    · intro S hS
      have hry := (hS (prefixName name "year") (bitLen (maxYear - minYear))
        (by simp [subFields])).2 ((y : Int) - 2000) (by simp)
      have hrm := (hS (prefixName name "month") 4 (by simp [subFields])).2 (m : Int) (by simp)
      have hrd := (hS (prefixName name "day") 5 (by simp [subFields])).2 (d : Int) (by simp)
      have hgy : storeGet S (prefixName name "year") = y - 2000 := by
        rw [hry, Int.emod_eq_of_lt (by omega) ?lt]
        · omega
        case lt =>
          have hcast : (y : Int) - 2000 = ((y - 2000 : Nat) : Int) := by omega
          rw [hcast]
          calc ((y - 2000 : Nat) : Int)
              < ((2 ^ bitLen (maxYear - minYear) : Nat) : Int) := by exact_mod_cast hwin
            _ = (2 : Int) ^ bitLen (maxYear - minYear) := by push_cast; ring
      have hgm : storeGet S (prefixName name "month") = m := by
        rw [hrm, Int.emod_eq_of_lt (by omega) (by push_cast; omega)]
        omega
      have hgd : storeGet S (prefixName name "day") = d := by
        rw [hrd, Int.emod_eq_of_lt (by omega) (by push_cast; omega)]
        omega
      refine ⟨.vdate y m d, ?_, VEquiv.vdate y m d⟩
      show (if isValidDate (2000 + storeGet S (prefixName name "year"))
          (storeGet S (prefixName name "month")) (storeGet S (prefixName name "day")) then
        some (Value.vdate (2000 + storeGet S (prefixName name "year"))
          (storeGet S (prefixName name "month")) (storeGet S (prefixName name "day")))
        else none) = _
      rw [hgy, hgm, hgd]
      have h2000 : 2000 + (y - 2000) = y := by omega
      rw [h2000, if_pos hvd]
  | vint n => exact Bool.noConfusion hv
  | vbool b => exact Bool.noConfusion hv
  | vhex s => exact Bool.noConfusion hv
  | vchoice c => exact Bool.noConfusion hv
  | vset s => exact Bool.noConfusion hv
  | vlist vs => exact Bool.noConfusion hv
  | vnone => exact Bool.noConfusion hv

theorem fieldOK_mchoice (choices : List String) : FieldOK (.mchoice choices) := by
  intro name v hnd hv
  cases v with
  | vset s =>
    have hall : s.all (fun c => choices.contains c) = true := hv
    simp only [List.all_eq_true] at hall
    have hsub : ∀ c ∈ s, c ∈ choices := fun c hc => by simpa using hall c hc
    have hnames : (subFields (.mchoice choices) name).map (fun e => e.1) =
        (List.range choices.length).map
          (fun i => prefixName name ("mcho" ++ toString i)) := by
      show ((List.range choices.length).map
        (fun i => (prefixName name ("mcho" ++ toString i), 1))).map (fun e => e.1) = _
      rw [List.map_map]
      rfl
    have hnd2 := hnd
    rw [hnames] at hnd2
    have hkeyinj : ∀ i, i < choices.length → ∀ j, j < choices.length →
        prefixName name ("mcho" ++ toString i) = prefixName name ("mcho" ++ toString j) →
        i = j := fun i hi j hj heq =>
      List.inj_on_of_nodup_map hnd2 (List.mem_range.mpr hi) (List.mem_range.mpr hj) heq
    refine ⟨s.dedup.filterMap (fun c => (choiceMapping choices c).map
      (fun i => (prefixName name ("mcho" ++ toString i), (1 : Int)))), ?_, ?_, ?_, ?_⟩
    · have hall' : (s.all fun c => choices.contains c) = true := hv
      show (if s.all (fun c => choices.contains c) then some _ else none) = _
      rw [if_pos hall']
    · intro p hp
      rcases List.mem_filterMap.mp hp with ⟨c, _, hfc⟩
      rcases Option.map_eq_some'.mp hfc with ⟨i, hmap, hpi⟩
      rw [← hpi, hnames]
      exact List.mem_map_of_mem _ (List.mem_range.mpr (choiceMapping_lt choices c i hmap))
    · rw [List.map_filterMap]
      refine List.Nodup.filterMap ?_ (List.nodup_dedup s)
      intro a a' b hb hb'
      rw [Option.mem_def, Option.map_map, Option.map_eq_some'] at hb hb'
      rcases hb with ⟨i, hia, hib⟩
      rcases hb' with ⟨j, hja, hjb⟩
      have hij := hkeyinj i (choiceMapping_lt _ _ _ hia) j (choiceMapping_lt _ _ _ hja)
        (hib.trans hjb.symm)
      subst hij
      exact choiceMapping_inj choices a a' i hia hja
    · intro S hS
      refine ⟨.vset (choices.dedup.filter (fun c =>
        match choiceMapping choices c with
        | some i => storeGet S (prefixName name ("mcho" ++ toString i)) != 0
        | none => false)), rfl, ?_⟩
      apply VEquiv.vset
      ext c
      simp only [List.mem_toFinset, List.mem_filter, List.mem_dedup]
      constructor
      · intro hcs
        have hcch : c ∈ choices := hsub c hcs
        rcases choiceMapping_of_mem choices c hcch with ⟨i, hmap⟩
        refine ⟨hcch, ?_⟩
        have hgc : (match choiceMapping choices c with
            | some j => storeGet S (prefixName name ("mcho" ++ toString j)) != 0
            | none => false) =
            (storeGet S (prefixName name ("mcho" ++ toString i)) != 0) := by rw [hmap]
        rw [hgc]
        have hget : storeGet S (prefixName name ("mcho" ++ toString i)) = 1 := by
          have hr := (hS (prefixName name ("mcho" ++ toString i)) 1
            (List.mem_map_of_mem _
              (List.mem_range.mpr (choiceMapping_lt choices c i hmap)))).2 1
            (List.mem_filterMap.mpr ⟨c, List.mem_dedup.mpr hcs, by rw [hmap]; rfl⟩)
          rw [hr]
          rfl
        rw [hget]
        rfl
      · rintro ⟨hcch, hg⟩
        rcases choiceMapping_of_mem choices c hcch with ⟨i, hmap⟩
        have hgc : (match choiceMapping choices c with
            | some j => storeGet S (prefixName name ("mcho" ++ toString j)) != 0
            | none => false) =
            (storeGet S (prefixName name ("mcho" ++ toString i)) != 0) := by rw [hmap]
        rw [hgc] at hg
        by_contra hcs
        have hnone : ∀ v : Int, (prefixName name ("mcho" ++ toString i), v) ∉
            s.dedup.filterMap (fun c => (choiceMapping choices c).map
              (fun i => (prefixName name ("mcho" ++ toString i), (1 : Int)))) := by
          intro v hvmem
          rcases List.mem_filterMap.mp hvmem with ⟨c', hc', hfc'⟩
          rcases Option.map_eq_some'.mp hfc' with ⟨j, hj, hpair⟩
          have hkeyeq : prefixName name ("mcho" ++ toString j) =
              prefixName name ("mcho" ++ toString i) := congrArg Prod.fst hpair
          have hji := hkeyinj j (choiceMapping_lt _ _ _ hj) i
            (choiceMapping_lt _ _ _ hmap) hkeyeq
          subst hji
          have hcc : c' = c := choiceMapping_inj choices c' c j hj hmap
          subst hcc
          exact hcs (List.mem_dedup.mp hc')
        have hget := (hS (prefixName name ("mcho" ++ toString i)) 1
          (List.mem_map_of_mem _
            (List.mem_range.mpr (choiceMapping_lt choices c i hmap)))).1 hnone
        rw [hget] at hg
        simp at hg
  | vint n => exact Bool.noConfusion hv
  | vbool b => exact Bool.noConfusion hv
  | vhex s => exact Bool.noConfusion hv
  | vchoice c => exact Bool.noConfusion hv
  | vdate y m d => exact Bool.noConfusion hv
  | vlist vs => exact Bool.noConfusion hv
  | vnone => exact Bool.noConfusion hv

theorem zip_mem_of_get (l1 : List α) (l2 : List β) :
    ∀ (j : Nat) (h1 : j < l1.length) (h2 : j < l2.length),
      (l1.get ⟨j, h1⟩, l2.get ⟨j, h2⟩) ∈ l1.zip l2 := by
  induction l1 generalizing l2 with
  | nil => intro j h1 _; simp at h1
  | cons a l1 ih =>
    intro j h1 h2
    cases l2 with
    | nil => simp at h2
    | cons b l2 =>
      cases j with
      | zero => simp [List.zip_cons_cons]
      | succ j =>
        rw [List.zip_cons_cons]
        exact List.mem_cons_of_mem _ (ih l2 j (by simpa using h1) (by simpa using h2))

theorem fieldOK_list (elem : FieldKind) (L : Nat) (ih : FieldOK elem) :
    FieldOK (.list elem L) := by
  intro name v hnd hv
  cases v with
  | vlist vs =>
    have hv' : (decide (vs.length ≤ L) && vs.all (validValue elem)) = true := hv
    simp only [Bool.and_eq_true, decide_eq_true_eq, List.all_eq_true] at hv'
    obtain ⟨hlen, hvalid⟩ := hv'
    have hsubs : subFields (.list elem L) name =
        (prefixName name "size", bitLen L) ::
          ((List.range L).map
            (fun i => subFields elem (prefixName name (toString i)))).flatten := rfl
    have hnames : (subFields (.list elem L) name).map (fun e => e.1) =
        prefixName name "size" ::
          (((List.range L).map
            (fun i => subFields elem (prefixName name (toString i)))).flatten).map
              (fun e => e.1) := by rw [hsubs]; rfl
    have hnd2 := hnd
    rw [hnames, List.nodup_cons] at hnd2
    obtain ⟨hsizeNotMem, hflatnd⟩ := hnd2
    have hmapflat : (((List.range L).map
        (fun i => subFields elem (prefixName name (toString i)))).flatten).map
          (fun e => e.1) =
        ((List.range L).map
          (fun i => (subFields elem (prefixName name (toString i))).map
            (fun e => e.1))).flatten := by
      rw [List.map_flatten, List.map_map]
      rfl
    have hflatnd2 := hflatnd
    rw [hmapflat, List.nodup_flatten] at hflatnd2
    obtain ⟨hsegnd, hsegdisj⟩ := hflatnd2
    have hsegndj : ∀ j, j < L →
        ((subFields elem (prefixName name (toString j))).map (fun e => e.1)).Nodup := by
      intro j hj
      exact hsegnd _ (List.mem_map_of_mem _ (List.mem_range.mpr hj))
    have hsegdisj2 : ∀ j, j < L → ∀ m, m < L → j ≠ m →
        List.Disjoint ((subFields elem (prefixName name (toString j))).map (fun e => e.1))
          ((subFields elem (prefixName name (toString m))).map (fun e => e.1)) := by
      intro j hj m hm hjm
      have hp := List.pairwise_iff_get.mp hsegdisj
      rcases Nat.lt_or_ge j m with hlt | hge
      · have := hp ⟨j, by simpa using hj⟩ ⟨m, by simpa using hm⟩ (by simpa using hlt)
        simpa using this
      · have hlt : m < j := by omega
        have hd := hp ⟨m, by simpa using hm⟩ ⟨j, by simpa using hj⟩ (by simpa using hlt)
        have hdd : List.Disjoint
            ((subFields elem (prefixName name (toString m))).map (fun e => e.1))
            ((subFields elem (prefixName name (toString j))).map (fun e => e.1)) := by
          simpa using hd
        intro a haj ham
        exact hdd ham haj
    have pass1 : ∀ (ws : List Value) (i : Nat),
        (∀ w ∈ ws, validValue elem w = true) →
        (∀ j, j < ws.length →
          ((subFields elem (prefixName name (toString (i + j)))).map (fun e => e.1)).Nodup) →
        ∃ parts : List Dict, seqPack (pack elem) name i ws = some parts.flatten ∧
          parts.length = ws.length ∧
          ∀ j (hj : j < ws.length),
            pack elem (prefixName name (toString (i + j))) (ws.get ⟨j, hj⟩) =
              some (parts.getD j []) ∧
            (∀ p ∈ parts.getD j [],
              p.1 ∈ (subFields elem (prefixName name (toString (i + j)))).map (fun e => e.1)) ∧
            ((parts.getD j []).map (fun p => p.1)).Nodup := by
      intro ws
      induction ws with
      | nil =>
        intro i _ _
        exact ⟨[], rfl, rfl, fun j hj => absurd hj (by simp)⟩
      | cons w ws ihw =>
        intro i hval hnds
        have hnd0 : ((subFields elem (prefixName name (toString i))).map
            (fun e => e.1)).Nodup := by
          have := hnds 0 (by simp)
          simpa using this
        rcases ih (prefixName name (toString i)) w hnd0 (hval w (by simp)) with
          ⟨d, hd, hdsub, hdnd, _⟩
        rcases ihw (i + 1) (fun w' hw' => hval w' (by simp [hw']))
          (fun j hj => by
            have := hnds (j + 1) (by simpa using hj)
            rwa [show i + (j + 1) = (i + 1) + j by ring] at this) with
          ⟨parts, hp1, hp2, hp3⟩
        refine ⟨d :: parts, ?_, by simpa using hp2, ?_⟩
        · show (do
            let d0 ← pack elem (prefixName name (toString i)) w
            let r ← seqPack (pack elem) name (i + 1) ws
            pure (d0 ++ r)) = some ((d :: parts).flatten)
          rw [hd, hp1]
          rfl
        · intro j hj
          cases j with
          | zero =>
            refine ⟨?_, ?_, ?_⟩
            · simpa using hd
            · intro p hp
              have := hdsub p hp
              simpa using this
            · simpa using hdnd
          | succ j' =>
            have hj' : j' < ws.length := by simpa using hj
            have h3 := hp3 j' hj'
            rw [show i + (j' + 1) = (i + 1) + j' by ring]
            exact ⟨h3.1, h3.2.1, h3.2.2⟩
    rcases pass1 vs 0 hvalid (fun j hj => by simpa using hsegndj j (by omega)) with
      ⟨parts, hsp, hplen, hpprop⟩
    have hpack : pack (.list elem L) name (.vlist vs) =
        some ((prefixName name "size", (vs.length : Int)) :: parts.flatten) := by
      show (seqPack (pack elem) name 0 (vs.take L)).map
          (fun ds => (prefixName name "size", (vs.length : Int)) :: ds) = _
      rw [List.take_of_length_le hlen, hsp]
      rfl
    have hpartkey : ∀ (p : String × Int), p ∈ parts.flatten →
        ∃ m, m < vs.length ∧
          p.1 ∈ (subFields elem (prefixName name (toString m))).map (fun e => e.1) := by
      intro p hp
      rcases List.mem_flatten.mp hp with ⟨part, hpartmem, hpin⟩
      rcases List.mem_iff_getElem.mp hpartmem with ⟨m, hm, hmeq⟩
      refine ⟨m, by omega, ?_⟩
      have h3 := (hpprop m (by omega)).2.1
      rw [show (0 + m) = m by ring] at h3
      apply h3
      rw [List.getD_eq_getElem _ _ (by omega), hmeq]
      exact hpin
    refine ⟨_, hpack, ?_, ?_, ?_⟩
    · intro p hp
      rcases List.mem_cons.mp hp with hp | hp
      · rw [hp, hnames]
        simp
      · rcases hpartkey p hp with ⟨m, hm, hkey⟩
        rw [hnames]
        apply List.mem_cons_of_mem
        rw [hmapflat]
        exact List.mem_flatten.mpr
          ⟨_, List.mem_map_of_mem _ (List.mem_range.mpr (by omega)), hkey⟩
    · rw [List.map_cons, List.nodup_cons]
      constructor
      · intro hmem
        rcases List.mem_map.mp hmem with ⟨p, hp, hpk⟩
        rcases hpartkey p hp with ⟨m, hm, hkey⟩
        rw [hpk] at hkey
        apply hsizeNotMem
        rw [hmapflat]
        exact List.mem_flatten.mpr
          ⟨_, List.mem_map_of_mem _ (List.mem_range.mpr (by omega)), hkey⟩
      · have hkeys : (parts.flatten).map (fun p => p.1) =
            (parts.map (fun part => part.map (fun p => p.1))).flatten := by
          rw [List.map_flatten]
        rw [hkeys, List.nodup_flatten]
        constructor
        · intro l hl
          rcases List.mem_map.mp hl with ⟨part, hpart, hpeq⟩
          rcases List.mem_iff_getElem.mp hpart with ⟨m, hm, hmeq⟩
          rw [← hpeq]
          have h3 := (hpprop m (by omega)).2.2
          rw [List.getD_eq_getElem _ _ (by omega), hmeq] at h3
          exact h3
        · rw [List.pairwise_iff_get]
          intro a b hab
          intro key hka hkb
          have ha2 : a.1 < parts.length := by have := a.2; simpa using this
          have hb2 : b.1 < parts.length := by have := b.2; simpa using this
          rw [show (parts.map (fun part => part.map (fun p => p.1))).get a =
              (parts.get ⟨a.1, ha2⟩).map (fun p => p.1) by simp] at hka
          rw [show (parts.map (fun part => part.map (fun p => p.1))).get b =
              (parts.get ⟨b.1, hb2⟩).map (fun p => p.1) by simp] at hkb
          rcases List.mem_map.mp hka with ⟨p, hpa, hpka⟩
          rcases List.mem_map.mp hkb with ⟨q, hqb, hqkb⟩
          have hma := (hpprop a.1 (by omega)).2.1 p
            (by rw [List.getD_eq_getElem _ _ (by omega)]
                simpa using hpa)
          have hmb := (hpprop b.1 (by omega)).2.1 q
            (by rw [List.getD_eq_getElem _ _ (by omega)]
                simpa using hqb)
          rw [show (0 + a.1) = a.1 by ring] at hma
          rw [show (0 + b.1) = b.1 by ring] at hmb
          rw [hpka] at hma
          rw [hqkb] at hmb
          exact hsegdisj2 a.1 (by omega) b.1 (by omega) (by omega) hma hmb
    · intro S hS
      have hsizesub : (prefixName name "size", bitLen L) ∈ subFields (.list elem L) name := by
        rw [hsubs]
        simp
      have hsizeread := (hS (prefixName name "size") (bitLen L) hsizesub).2 (vs.length : Int)
        (by simp)
      have hLlt : (vs.length : Int) < (2 : Int) ^ bitLen L := by
        have h1 : vs.length < 2 ^ bitLen L :=
          Nat.lt_of_le_of_lt hlen (lt_two_pow_bitLen L)
        calc (vs.length : Int) < ((2 ^ bitLen L : Nat) : Int) := by exact_mod_cast h1
          _ = (2 : Int) ^ bitLen L := by push_cast; ring
      have hsizeget : storeGet S (prefixName name "size") = vs.length := by
        rw [hsizeread, Int.emod_eq_of_lt (by positivity) hLlt]
        simp
      have hreads : ∀ j, j < vs.length →
          ReadsD (parts.getD j [])
            (subFields elem (prefixName name (toString j))) S := by
        intro j hj
        apply readsD_restrict _ _ _ hS
        · intro e he
          rw [hsubs]
          apply List.mem_cons_of_mem
          exact List.mem_flatten.mpr
            ⟨_, List.mem_map_of_mem _ (List.mem_range.mpr (by omega)), he⟩
        · intro key hkeyseg v
          have hkeyne : key ≠ prefixName name "size" := by
            intro hkeq
            apply hsizeNotMem
            rw [hmapflat]
            refine List.mem_flatten.mpr
              ⟨(subFields elem (prefixName name (toString j))).map (fun e => e.1),
               List.mem_map_of_mem _ (List.mem_range.mpr (show j < L by omega)), ?_⟩
            rw [← hkeq]
            exact hkeyseg
          have hflatpad : (parts ++ List.replicate (L - vs.length) ([] : Dict)).flatten =
              parts.flatten := by
            rw [List.flatten_append]
            simp
          have hpadlen : (parts ++ List.replicate (L - vs.length) ([] : Dict)).length = L := by
            rw [List.length_append, List.length_replicate, hplen]
            omega
          have hf : List.Forall₂ (fun (dd : Dict) (seg : List (String × Nat)) =>
              ∀ p ∈ dd, p.1 ∈ seg.map (fun e => e.1))
              (parts ++ List.replicate (L - vs.length) ([] : Dict))
              ((List.range L).map
                (fun i => subFields elem (prefixName name (toString i)))) := by
            rw [List.forall₂_iff_get]
            refine ⟨by simpa using hpadlen, ?_⟩
            intro m hm1 hm2
            have hmL : m < L := by rw [hpadlen] at hm1; exact hm1
            have hseg : ((List.range L).map
                (fun i => subFields elem (prefixName name (toString i)))).get
                  ⟨m, hm2⟩ = subFields elem (prefixName name (toString m)) := by
              simp
            rw [hseg]
            by_cases hmv : m < vs.length
            · rw [show (parts ++ List.replicate (L - vs.length) ([] : Dict)).get ⟨m, hm1⟩ =
                  parts.get ⟨m, by omega⟩ from List.get_append_left _ _ _]
              intro p hp
              have h3 := (hpprop m hmv).2.1 p
                (by rw [List.getD_eq_getElem _ _ (by omega)]
                    simpa using hp)
              rw [show (0 + m) = m by ring] at h3
              exact h3
            · rw [show (parts ++ List.replicate (L - vs.length) ([] : Dict)).get ⟨m, hm1⟩ =
                  (List.replicate (L - vs.length) ([] : Dict)).get
                    ⟨m - parts.length, by simp at hm1 ⊢; omega⟩ from
                List.get_append_right _ _ (by rw [hplen]; omega)]
              intro p hp
              simp at hp
          have hdisjP : List.Pairwise (fun s t : List (String × Nat) =>
              List.Disjoint (s.map (fun e => e.1)) (t.map (fun e => e.1)))
              ((List.range L).map
                (fun i => subFields elem (prefixName name (toString i)))) := by
            rw [List.pairwise_iff_get]
            intro a b hab
            have ha2 : a.1 < L := by have := a.2; simpa using this
            have hb2 : b.1 < L := by have := b.2; simpa using this
            rw [show ((List.range L).map
                (fun i => subFields elem (prefixName name (toString i)))).get a =
                subFields elem (prefixName name (toString a.1)) by simp]
            rw [show ((List.range L).map
                (fun i => subFields elem (prefixName name (toString i)))).get b =
                subFields elem (prefixName name (toString b.1)) by simp]
            exact hsegdisj2 a.1 ha2 b.1 hb2 (by omega)
          have hjL : j < L := by omega
          have hjpad : j < (parts ++ List.replicate (L - vs.length) ([] : Dict)).length := by
            rw [hpadlen]; exact hjL
          have hjseg : j < ((List.range L).map
              (fun i => subFields elem (prefixName name (toString i)))).length := by
            simpa using hjL
          have hzip := zip_mem_of_get (parts ++ List.replicate (L - vs.length) ([] : Dict))
            ((List.range L).map (fun i => subFields elem (prefixName name (toString i))))
            j hjpad hjseg
          have hgetj : (parts ++ List.replicate (L - vs.length) ([] : Dict)).get ⟨j, hjpad⟩ =
              parts.getD j [] := by
            rw [show (parts ++ List.replicate (L - vs.length) ([] : Dict)).get ⟨j, hjpad⟩ =
                parts.get ⟨j, by omega⟩ from List.get_append_left _ _ _]
            rw [List.getD_eq_getElem _ _ (by omega)]
            rfl
          have hsegj : ((List.range L).map
              (fun i => subFields elem (prefixName name (toString i)))).get ⟨j, hjseg⟩ =
              subFields elem (prefixName name (toString j)) := by simp
          have hloc := dict_localize _ _ hf hdisjP _ _ hzip key
            (by rw [hsegj]; exact hkeyseg) v
          rw [hgetj] at hloc
          constructor
          · intro hmem
            rcases List.mem_cons.mp hmem with hmem | hmem
            · exact absurd (congrArg Prod.fst hmem) hkeyne
            · rw [← hflatpad] at hmem
              exact hloc.mp hmem
          · intro hmem
            apply List.mem_cons_of_mem
            rw [← hflatpad]
            exact hloc.mpr hmem
      have pass2 : ∀ (ws : List Value) (i : Nat),
          (∀ j (hj : j < ws.length), ∃ (hij : i + j < vs.length),
            ws.get ⟨j, hj⟩ = vs.get ⟨i + j, hij⟩) →
          i + ws.length ≤ vs.length →
          ∃ outs, seqUnpack (unpack elem) name S i ws.length = some outs ∧
            List.Forall₂ VEquiv ws outs := by
        intro ws
        induction ws with
        | nil => exact fun i _ _ => ⟨[], rfl, List.Forall₂.nil⟩
        | cons w ws ihw =>
          intro i hcorr hle
          simp only [List.length_cons] at hle
          rcases hcorr 0 (by simp) with ⟨hi0, hw0⟩
          have hi : i < vs.length := by omega
          have hw0' : w = vs.get ⟨i, hi⟩ := by simpa using hw0
          have hvw : validValue elem w = true := by
            rw [hw0']
            exact hvalid _ (List.get_mem vs i hi)
          rcases ih (prefixName name (toString i)) w (hsegndj i (by omega)) hvw with
            ⟨d, hd, _, _, hdunp⟩
          have hdeq : d = parts.getD i [] := by
            have hp := (hpprop i hi).1
            simp only [Nat.zero_add] at hp
            rw [← hw0', hd] at hp
            exact Option.some.inj hp
          rcases hdunp S (by rw [hdeq]; exact hreads i hi) with ⟨w', hw', hequiv⟩
          rcases ihw (i + 1)
            (fun j hj => by
              rcases hcorr (j + 1) (by simpa using hj) with ⟨hij, heq⟩
              refine ⟨by omega, ?_⟩
              have h2 : vs.get ⟨i + (j + 1), hij⟩ = vs.get ⟨(i + 1) + j, by omega⟩ :=
                congrArg vs.get (Fin.ext (by ring))
              simpa using heq.trans h2)
            (by omega) with ⟨outs, houts, hfa⟩
          refine ⟨w' :: outs, ?_, List.Forall₂.cons hequiv hfa⟩
          show (do
            let v0 ← unpack elem (prefixName name (toString i)) S
            let r ← seqUnpack (unpack elem) name S (i + 1) ws.length
            pure (v0 :: r)) = some (w' :: outs)
          rw [hw', houts]
          rfl
      rcases pass2 vs 0 (fun j hj => ⟨by omega, by simp⟩) (by omega) with ⟨outs, houts, hfa⟩
      refine ⟨.vlist outs, ?_, ?_⟩
      · show (seqUnpack (unpack elem) name S 0
            (min (storeGet S (prefixName name "size")) L)).map Value.vlist = _
        rw [hsizeget, Nat.min_eq_left hlen, houts]
        rfl
      · exact VEquiv.vlist_forall2 hfa
  | vint n => exact Bool.noConfusion hv
  | vbool b => exact Bool.noConfusion hv
  | vhex s => exact Bool.noConfusion hv
  | vchoice c => exact Bool.noConfusion hv
  | vset s => exact Bool.noConfusion hv
  | vdate y m d => exact Bool.noConfusion hv
  | vnone => exact Bool.noConfusion hv

/-- The fresh instance's structure has the schema's shape. -/
theorem freshState_shape (sch : Schema) :
    storeShape (freshState sch).store = subFieldsAll sch := by
  unfold storeShape freshState
  rw [List.map_map]
  conv_rhs => rw [← List.map_id (subFieldsAll sch)]
  apply List.map_congr_left
  intro e _
  rfl

/-! ## Whole-schema assembly

One encode from a fresh instance applies the concatenation of the
per-field pack dicts to a zeroed structure; `ReadsD` localizes that store
back to each field's own dict, so the per-field round trips compose. -/

/-- Every field kind satisfies the per-field round trip. -/
theorem field_core : ∀ k : FieldKind, FieldOK k := by
  intro k
  induction k with
  | number maxValue => exact fieldOK_number maxValue
  | boolean => exact fieldOK_boolean
  | hex length => exact fieldOK_hex length
  | choice choices => exact fieldOK_choice choices
  | date minYear maxYear => exact fieldOK_date minYear maxYear
  | mchoice choices => exact fieldOK_mchoice choices
  | list elem L ih => exact fieldOK_list elem L ih

theorem subFieldsAll_names (sch : Schema) :
    (subFieldsAll sch).map (fun e => e.1) =
      (sch.map (fun f => (subFields f.2 f.1).map (fun e => e.1))).flatten := by
  unfold subFieldsAll
  rw [List.map_flatten, List.map_map]
  rfl

/-- Each field's own sub-field names are duplicate-free when the whole
structure's are. -/
theorem schema_seg_nodup (sch : Schema)
    (hnd : ((subFieldsAll sch).map (fun e => e.1)).Nodup) :
    ∀ f ∈ sch, ((subFields f.2 f.1).map (fun e => e.1)).Nodup := by
  intro f hf
  rw [subFieldsAll_names, List.nodup_flatten] at hnd
  exact hnd.1 _ (List.mem_map_of_mem _ hf)

/-- Distinct fields' sub-field names are disjoint when the whole
structure's names are duplicate-free. -/
theorem schema_seg_pairwise (sch : Schema)
    (hnd : ((subFieldsAll sch).map (fun e => e.1)).Nodup) :
    List.Pairwise (fun s t : List (String × Nat) =>
      List.Disjoint (s.map (fun e => e.1)) (t.map (fun e => e.1)))
      (sch.map (fun f => subFields f.2 f.1)) := by
  rw [subFieldsAll_names, List.nodup_flatten] at hnd
  have h := hnd.2
  rw [show sch.map (fun f => (subFields f.2 f.1).map (fun e => e.1)) =
      (sch.map (fun f => subFields f.2 f.1)).map (fun s => s.map (fun e => e.1)) by
    rw [List.map_map]; rfl] at h
  exact List.pairwise_map.mp h

/-- A record valid for the schema packs fieldwise: one dict per field, its
keys among the field's own sub-field names, without duplicates. -/
theorem packAll_exists (sch : Schema) (rec : Record)
    (hvalid : ∀ f ∈ sch, validValue f.2 (lookupValue rec f.1) = true)
    (hsegnd : ∀ f ∈ sch, ((subFields f.2 f.1).map (fun e => e.1)).Nodup) :
    ∃ parts : List Dict, List.Forall₂ (fun (f : String × FieldKind) d =>
      pack f.2 f.1 (lookupValue rec f.1) = some d ∧
      (∀ p ∈ d, p.1 ∈ (subFields f.2 f.1).map (fun e => e.1)) ∧
      (d.map (fun p => p.1)).Nodup) sch parts := by
  induction sch with
  | nil => exact ⟨[], List.Forall₂.nil⟩
  | cons f sch ih =>
    rcases field_core f.2 f.1 (lookupValue rec f.1) (hsegnd f (by simp))
      (hvalid f (by simp)) with ⟨d, hd, hsub, hdnd, _⟩
    rcases ih (fun g hg => hvalid g (by simp [hg])) (fun g hg => hsegnd g (by simp [hg])) with
      ⟨parts, hparts⟩
    exact ⟨d :: parts, List.Forall₂.cons ⟨hd, hsub, hdnd⟩ hparts⟩

theorem packAll_seg_sub (sch : Schema) (rec : Record) (parts : List Dict)
    (hf : List.Forall₂ (fun (f : String × FieldKind) d =>
      pack f.2 f.1 (lookupValue rec f.1) = some d ∧
      (∀ p ∈ d, p.1 ∈ (subFields f.2 f.1).map (fun e => e.1)) ∧
      (d.map (fun p => p.1)).Nodup) sch parts) :
    List.Forall₂ (fun (dd : Dict) (seg : List (String × Nat)) =>
      ∀ p ∈ dd, p.1 ∈ seg.map (fun e => e.1)) parts
      (sch.map (fun f => subFields f.2 f.1)) := by
  induction hf with
  | nil => exact List.Forall₂.nil
  | cons h _ ih => exact List.Forall₂.cons h.2.1 ih

theorem packAll_keys_sub (sch : Schema) (rec : Record) (parts : List Dict)
    (hf : List.Forall₂ (fun (f : String × FieldKind) d =>
      pack f.2 f.1 (lookupValue rec f.1) = some d ∧
      (∀ p ∈ d, p.1 ∈ (subFields f.2 f.1).map (fun e => e.1)) ∧
      (d.map (fun p => p.1)).Nodup) sch parts) :
    ∀ p ∈ parts.flatten, p.1 ∈ (subFieldsAll sch).map (fun e => e.1) := by
  intro p hp
  rcases flatten_key_mem parts _ (packAll_seg_sub sch rec parts hf) p.1 p.2
    (by simpa using hp) with ⟨seg, hseg, hk⟩
  rcases List.mem_map.mp hseg with ⟨f, hfmem, hfeq⟩
  rw [subFieldsAll_names]
  exact List.mem_flatten.mpr
    ⟨(subFields f.2 f.1).map (fun e => e.1), List.mem_map_of_mem _ hfmem, by rw [hfeq]; exact hk⟩

theorem pairwise_disjoint_of_sub (A B : List (List α))
    (hlen : A.length = B.length)
    (hsub : ∀ (i : Nat) (h1 : i < A.length) (h2 : i < B.length),
      ∀ x ∈ A.get ⟨i, h1⟩, x ∈ B.get ⟨i, h2⟩)
    (hdisj : List.Pairwise List.Disjoint B) :
    List.Pairwise List.Disjoint A := by
  rw [List.pairwise_iff_get] at hdisj ⊢
  intro a b hab x hxa hxb
  have ha : a.1 < B.length := by omega
  have hb : b.1 < B.length := by omega
  exact hdisj ⟨a.1, ha⟩ ⟨b.1, hb⟩ hab (hsub a.1 a.2 ha x hxa) (hsub b.1 b.2 hb x hxb)

theorem packAll_keys_nodup (sch : Schema) (rec : Record) (parts : List Dict)
    (hnd : ((subFieldsAll sch).map (fun e => e.1)).Nodup)
    (hf : List.Forall₂ (fun (f : String × FieldKind) d =>
      pack f.2 f.1 (lookupValue rec f.1) = some d ∧
      (∀ p ∈ d, p.1 ∈ (subFields f.2 f.1).map (fun e => e.1)) ∧
      (d.map (fun p => p.1)).Nodup) sch parts) :
    ((parts.flatten).map (fun p => p.1)).Nodup := by
  rw [List.map_flatten, List.nodup_flatten]
  have hff := List.forall₂_iff_get.mp hf
  constructor
  · intro l hl
    rcases List.mem_map.mp hl with ⟨part, hpart, hpeq⟩
    rcases List.mem_iff_getElem.mp hpart with ⟨m, hm, hmeq⟩
    have h3 := (hff.2 m (by omega) (by omega)).2.2
    rw [← hpeq, ← hmeq]
    rw [show parts[m] = parts.get ⟨m, by omega⟩ from rfl]
    exact h3
  · apply pairwise_disjoint_of_sub _
      ((sch.map (fun f => subFields f.2 f.1)).map (fun s => s.map (fun e => e.1)))
      (by simp [← hff.1])
    · intro i h1 h2
      intro x hx
      have h1p : i < parts.length := by simpa using h1
      have h1s : i < sch.length := by simp at h2; omega
      have hseg := (hff.2 i (by omega) h1p).2.1
      rw [show (parts.map (fun part => part.map (fun p => p.1))).get ⟨i, h1⟩ =
          (parts.get ⟨i, h1p⟩).map (fun p => p.1) by simp] at hx
      rcases List.mem_map.mp hx with ⟨p, hp, hpk⟩
      rw [show ((sch.map (fun f => subFields f.2 f.1)).map
            (fun s => s.map (fun e => e.1))).get ⟨i, h2⟩ =
          (subFields (sch.get ⟨i, h1s⟩).2 (sch.get ⟨i, h1s⟩).1).map (fun e => e.1) by simp]
      rw [← hpk]
      exact hseg p hp
    · have h : List.Pairwise List.Disjoint
          (sch.map (fun f => (subFields f.2 f.1).map (fun e => e.1))) := by
        rw [subFieldsAll_names, List.nodup_flatten] at hnd
        exact hnd.2
      rw [show ((sch.map (fun f => subFields f.2 f.1)).map (fun s => s.map (fun e => e.1))) =
          sch.map (fun f => (subFields f.2 f.1).map (fun e => e.1)) by
        rw [List.map_map]; rfl]
      exact h

/-- The global one-encode store reads, on each field's own sub-fields, like
that field's pack dict. -/
theorem packAll_localize (sch : Schema) (rec : Record) (parts : List Dict) (S : Store)
    (hnd : ((subFieldsAll sch).map (fun e => e.1)).Nodup)
    (hf : List.Forall₂ (fun (f : String × FieldKind) d =>
      pack f.2 f.1 (lookupValue rec f.1) = some d ∧
      (∀ p ∈ d, p.1 ∈ (subFields f.2 f.1).map (fun e => e.1)) ∧
      (d.map (fun p => p.1)).Nodup) sch parts)
    (hreads : ReadsD parts.flatten (subFieldsAll sch) S) :
    ∀ (i : Nat) (h1 : i < sch.length) (h2 : i < parts.length),
      ReadsD (parts.get ⟨i, h2⟩)
        (subFields (sch.get ⟨i, h1⟩).2 (sch.get ⟨i, h1⟩).1) S := by
  intro i h1 h2
  apply readsD_restrict _ _ _ hreads
  · intro e he
    unfold subFieldsAll
    exact List.mem_flatten.mpr
      ⟨subFields (sch.get ⟨i, h1⟩).2 (sch.get ⟨i, h1⟩).1,
       List.mem_map_of_mem _ (List.get_mem sch i h1), he⟩
  · intro key hkey v
    have hseg : i < (sch.map (fun f => subFields f.2 f.1)).length := by simpa using h1
    have hgot : (sch.map (fun f => subFields f.2 f.1)).get ⟨i, hseg⟩ =
        subFields (sch.get ⟨i, h1⟩).2 (sch.get ⟨i, h1⟩).1 := by simp
    have hzip := zip_mem_of_get parts (sch.map (fun f => subFields f.2 f.1)) i h2 hseg
    rw [hgot] at hzip
    exact dict_localize parts _ (packAll_seg_sub sch rec parts hf)
      (schema_seg_pairwise sch hnd) _ _ hzip key hkey v

/-- `encodeFieldsNoCache` applies the concatenation of the per-field pack
dicts to the running store. -/
theorem encodeFieldsNoCache_eq (rec : Record) (sch : Schema) (parts : List Dict)
    (hf : List.Forall₂ (fun (f : String × FieldKind) d =>
      pack f.2 f.1 (lookupValue rec f.1) = some d) sch parts) :
    ∀ store, encodeFieldsNoCache sch rec store = some (applyDict store parts.flatten) := by
  induction hf with
  | nil => intro store; rfl
  | @cons f d sch parts hfd _ ih =>
    intro store
    obtain ⟨n, k⟩ := f
    show (match pack k n (lookupValue rec n) with
      | some d0 => encodeFieldsNoCache sch rec (applyDict store d0)
      | none => none) = some (applyDict store ((d :: parts).flatten))
    rw [show pack k n (lookupValue rec n) = some d from hfd]
    show encodeFieldsNoCache sch rec (applyDict store d) =
      some (applyDict store ((d :: parts).flatten))
    rw [ih, List.flatten_cons, applyDict_append_dict]

/-- With pairwise-distinct cache keys, none already cached, the cached
encode loop computes exactly the no-cache loop. -/
theorem encodeFields_eq_noCache (rec : Record) :
    ∀ (sch : Schema) (store : Store) (cache : Cache),
    (sch.map (fun f => f.1 ++ pyStr (lookupValue rec f.1))).Nodup →
    (∀ f ∈ sch, cache.lookup (f.1 ++ pyStr (lookupValue rec f.1)) = none) →
    ∃ cache', encodeFields sch rec store cache =
      (encodeFieldsNoCache sch rec store).map (fun s => (s, cache')) := by
  intro sch
  induction sch with
  | nil => intro store cache _ _; exact ⟨cache, rfl⟩
  | cons f sch ih =>
    intro store cache hnd hnone
    obtain ⟨n, k⟩ := f
    have hkey : cache.lookup (n ++ pyStr (lookupValue rec n)) = none :=
      hnone (n, k) (by simp)
    simp only [List.map_cons, List.nodup_cons] at hnd
    rcases hp : pack k n (lookupValue rec n) with _ | d
    · refine ⟨cache, ?_⟩
      show (match cache.lookup (n ++ pyStr (lookupValue rec n)) with
        | some d0 => encodeFields sch rec (applyDict store d0) cache
        | none => match pack k n (lookupValue rec n) with
            | some d0 => encodeFields sch rec (applyDict store d0)
                ((n ++ pyStr (lookupValue rec n), d0) :: cache)
            | none => none) =
        (match pack k n (lookupValue rec n) with
          | some d0 => encodeFieldsNoCache sch rec (applyDict store d0)
          | none => none).map (fun s => (s, cache))
      rw [hkey, hp]
      rfl
    · have hnone2 : ∀ g ∈ sch,
          ((n ++ pyStr (lookupValue rec n), d) :: cache).lookup
            (g.1 ++ pyStr (lookupValue rec g.1)) = none := by
        intro g hg
        have hne : g.1 ++ pyStr (lookupValue rec g.1) ≠ n ++ pyStr (lookupValue rec n) := by
          intro he
          exact hnd.1 (by rw [← he]; exact List.mem_map_of_mem _ hg)
        have : ((g.1 ++ pyStr (lookupValue rec g.1)) ==
            (n ++ pyStr (lookupValue rec n))) = false := by
          simpa using hne
        show (match (g.1 ++ pyStr (lookupValue rec g.1)) ==
            (n ++ pyStr (lookupValue rec n)) with
          | true => some d
          | false => cache.lookup (g.1 ++ pyStr (lookupValue rec g.1))) = none
        rw [this]
        exact hnone g (by simp [hg])
      rcases ih (applyDict store d) ((n ++ pyStr (lookupValue rec n), d) :: cache)
        hnd.2 hnone2 with ⟨cache2, hc2⟩
      refine ⟨cache2, ?_⟩
      show (match cache.lookup (n ++ pyStr (lookupValue rec n)) with
        | some d0 => encodeFields sch rec (applyDict store d0) cache
        | none => match pack k n (lookupValue rec n) with
            | some d0 => encodeFields sch rec (applyDict store d0)
                ((n ++ pyStr (lookupValue rec n), d0) :: cache)
            | none => none) =
        (match pack k n (lookupValue rec n) with
          | some d0 => encodeFieldsNoCache sch rec (applyDict store d0)
          | none => none).map (fun s => (s, cache2))
      rw [hkey, hp]
      exact hc2

/-- Looking up the `i`-th record entry's name finds its value when record
names are duplicate-free. -/
theorem lookupValue_get_of_nodup (rec : Record)
    (hnd : (rec.map (fun e => e.1)).Nodup) :
    ∀ (i : Nat) (hi : i < rec.length),
      lookupValue rec (rec.get ⟨i, hi⟩).1 = (rec.get ⟨i, hi⟩).2 := by
  induction rec with
  | nil => intro i hi; simp at hi
  | cons e rec ih =>
    simp only [List.map_cons, List.nodup_cons] at hnd
    intro i hi
    cases i with
    | zero =>
      show lookupValue (e :: rec) e.1 = e.2
      unfold lookupValue
      rw [show List.lookup e.1 (e :: rec) = some e.2 by
        show (match e.1 == e.1 with
          | true => some e.2
          | false => List.lookup e.1 rec) = some e.2
        rw [show (e.1 == e.1) = true by simp]]
      rfl
    | succ j =>
      have hj : j < rec.length := by simpa using hi
      have hget : (e :: rec).get ⟨j + 1, hi⟩ = rec.get ⟨j, hj⟩ := rfl
      rw [hget]
      have hne : ((rec.get ⟨j, hj⟩).1 == e.1) = false := by
        simp only [beq_eq_false_iff_ne, ne_eq]
        intro he
        exact hnd.1 (he ▸ List.mem_map_of_mem _ (List.get_mem rec j hj))
      have hstep : List.lookup (rec.get ⟨j, hj⟩).1 (e :: rec) =
          List.lookup (rec.get ⟨j, hj⟩).1 rec := by
        show (match (rec.get ⟨j, hj⟩).1 == e.1 with
          | true => some e.2
          | false => List.lookup (rec.get ⟨j, hj⟩).1 rec) =
          List.lookup (rec.get ⟨j, hj⟩).1 rec
        rw [hne]
      show (List.lookup (rec.get ⟨j, hj⟩).1 (e :: rec)).getD Value.vnone =
        (rec.get ⟨j, hj⟩).2
      rw [hstep]
      exact ih hnd.2 j hj

/-- The decode comprehension succeeds on the one-encode store and returns,
field by field, a value equivalent to the record's. -/
theorem unpackFields_core (rec : Record) (S : Store) (sch : Schema) (parts : List Dict)
    (hf : List.Forall₂ (fun (f : String × FieldKind) d =>
      pack f.2 f.1 (lookupValue rec f.1) = some d ∧
      validValue f.2 (lookupValue rec f.1) = true ∧
      ((subFields f.2 f.1).map (fun e => e.1)).Nodup ∧
      ReadsD d (subFields f.2 f.1) S) sch parts) :
    ∃ rec', unpackFields sch S = some rec' ∧
      List.Forall₂ (fun (f : String × FieldKind) (e : String × Value) =>
        e.1 = f.1 ∧ VEquiv (lookupValue rec f.1) e.2) sch rec' := by
  induction hf with
  | nil => exact ⟨[], rfl, List.Forall₂.nil⟩
  | @cons f d sch parts hfd _ ih =>
    obtain ⟨hp, hv, hnd, hrd⟩ := hfd
    rcases field_core f.2 f.1 (lookupValue rec f.1) hnd hv with ⟨d2, hd2, _, _, hunp⟩
    have hdd : d2 = d := by
      rw [hp] at hd2
      exact (Option.some.inj hd2).symm
    rcases hunp S (by rw [hdd]; exact hrd) with ⟨v2, hv2, hequiv⟩
    rcases ih with ⟨rec2, hrec2, hfa⟩
    refine ⟨(f.1, v2) :: rec2, ?_, List.Forall₂.cons ⟨rfl, hequiv⟩ hfa⟩
    show (do
      let v0 ← unpack f.2 f.1 S
      let r ← unpackFields sch S
      pure ((f.1, v0) :: r)) = some ((f.1, v2) :: rec2)
    rw [hv2, hrec2]
    rfl

/-- `VEquiv` on hex values is string equality. -/
theorem vhex_inv {a b : String} (h : VEquiv (.vhex a) (.vhex b)) : a = b := by
  cases h
  rfl

theorem map_eq_self_forall (f : α → α) (l : List α) :
    l.map f = l ↔ ∀ x ∈ l, f x = x := by
  induction l with
  | nil => simp
  | cons a l ih => simp [ih]

/-- Lowercasing a hex digit does not change its value. -/
theorem hexVal_lowerHexChar (c : Char) : hexVal (lowerHexChar c) = hexVal c := by
  unfold lowerHexChar
  by_cases h : 65 ≤ c.toNat ∧ c.toNat ≤ 70
  · rw [if_pos h]
    have h1 : hexVal (Char.ofNat (c.toNat + 32)) = some (c.toNat + 32 - 87) := by
      unfold hexVal
      rw [char_toNat_ofNat _ (by omega)]
      rw [if_neg (by omega), if_pos (by omega)]
    have h2 : hexVal c = some (c.toNat - 55) := by
      unfold hexVal
      rw [if_neg (by omega), if_neg (by omega), if_pos h]
    rw [h1, h2]
    congr 1
  · rw [if_neg h]

/-- `bytearray.fromhex` is case-insensitive: lowercasing first parses to the
same bytes. -/
theorem hexPairs_map_lower : ∀ cs : List Char,
    hexPairs (cs.map lowerHexChar) = hexPairs cs
  | [] => rfl
  | [_] => rfl
  | a :: b :: rest => by
      show (do
        let x ← hexVal (lowerHexChar a)
        let y ← hexVal (lowerHexChar b)
        let r ← hexPairs (rest.map lowerHexChar)
        pure ((16 * x + y) :: r)) = (do
        let x ← hexVal a
        let y ← hexVal b
        let r ← hexPairs rest
        pure ((16 * x + y) :: r))
      rw [hexVal_lowerHexChar, hexVal_lowerHexChar, hexPairs_map_lower rest]

/-- A hex digit fixed by lowercasing is already lowercase. -/
theorem isLowerHex_of_lower_eq (c : Char) (hdig : isHexDigit c = true)
    (h : lowerHexChar c = c) : isLowerHex c = true := by
  unfold isHexDigit at hdig
  simp only [Bool.or_eq_true, Bool.and_eq_true, decide_eq_true_eq] at hdig
  rcases hdig with h1 | h2
  · exact h1
  · exfalso
    unfold lowerHexChar at h
    rw [if_pos h2] at h
    have h3 := congrArg Char.toNat h
    rw [char_toNat_ofNat _ (by omega)] at h3
    omega

/-! ## Claim theorems -/

/-- **C5**: for every schema the layout's `total_bytes` equals
`ceil(total_bits / 8)` (with `total_bits` the sum of the declared
sub-field widths), and every successful `encode` — from any instance state
whose structure has the schema's shape, in particular any reachable state —
returns exactly `total_bytes` bytes, independent of the field values.
(The byte size of the ctypes structure itself is modelled from the spec's
Layout Builder, see `totalBytes`.) -/
theorem c5_encode_length (sch : Schema) (st : EngineState) (rec : Record)
    (bytes : List Nat) (st' : EngineState)
    (hshape : storeShape st.store = subFieldsAll sch)
    (henc : encode sch st rec = some (bytes, st')) :
    bytes.length = totalBytes sch ∧ totalBytes sch = (totalBits sch + 7) / 8 := by
  refine ⟨?_, rfl⟩
  unfold encode at henc
  rcases hef : encodeFields sch rec st.store st.cache with _ | p
  · rw [hef] at henc; cases henc
  · rw [hef] at henc
    simp at henc
    rw [← henc.1]
    exact storeToBytes_length sch p.1 (by rw [encodeFields_shape _ _ _ _ _ _ hef, hshape])

/-- **C5 witness**: a 6-bit integer field occupies 1 byte and `encode 25`
returns exactly 1 byte. -/
theorem c5_encode_length_witness :
    [(100 : Nat)].length = totalBytes [("count", FieldKind.number 50)] ∧
    totalBytes [("count", FieldKind.number 50)] =
      (totalBits [("count", FieldKind.number 50)] + 7) / 8 :=
  c5_encode_length [("count", FieldKind.number 50)]
    (freshState [("count", FieldKind.number 50)]) [("count", Value.vint 25)] [100]
    ⟨[("count_num", 6, 25)], [("count25", [("count_num", 25)])]⟩
    (freshState_shape _) rfl

/-- **C2** (code bug): the source's `decode` has no length guard at all.  A
buffer one byte short of `total_bytes` is *accepted*: the ctypes array
constructor zero-fills the missing bytes and decode succeeds (here a 1-byte
layout decodes the empty buffer to a record).  Moreover a buffer of exactly
`total_bytes` does **not** always succeed: a `ChoiceField` with 3 choices
occupies 2 bits, and the buffer `[192]` decodes the index 3, so
`choices[3]` raises `IndexError`. -/
theorem c2_no_length_guard :
    (decode [("b", FieldKind.boolean)] (freshState [("b", FieldKind.boolean)]) []).map
        (fun p => p.1) = some [("b", Value.vbool false)] ∧
    totalBytes [("b", FieldKind.boolean)] = 1 ∧
    decode [("c", FieldKind.choice ["a", "b", "c"])]
        (freshState [("c", FieldKind.choice ["a", "b", "c"])]) [192] = none ∧
    totalBytes [("c", FieldKind.choice ["a", "b", "c"])] = 1 :=
  ⟨rfl, rfl, rfl, rfl⟩

/-- **C3** (code bug): `encode` never clears the packed buffer — the reset
line assigns to the misspelled attribute `as_bytes` while the union field is
`as_byte` — so encode output depends on instance history.  Concretely, for a
2-choice multi-choice field: a fresh instance encodes `{"a"}` to `[128]`,
but after a `decode([255])` on the same instance (which fills both bits),
encoding the very same record returns `[192]`: the stale `b` bit leaks into
the output, contradicting the claim that the result depends only on the
layout and the record. -/
theorem c3_buffer_not_zeroed :
    (encode [("s", FieldKind.mchoice ["a", "b"])]
        (freshState [("s", FieldKind.mchoice ["a", "b"])]) [("s", Value.vset ["a"])]).map
        (fun p => p.1) = some [128] ∧
    (decode [("s", FieldKind.mchoice ["a", "b"])]
        (freshState [("s", FieldKind.mchoice ["a", "b"])]) [255]).map
        (fun p => p.2.store) = some [("s_mcho0", 1, 1), ("s_mcho1", 1, 1)] ∧
    (decode [("s", FieldKind.mchoice ["a", "b"])]
        (freshState [("s", FieldKind.mchoice ["a", "b"])]) [255]).map
        (fun p => p.2.cache) = some [] ∧
    (encode [("s", FieldKind.mchoice ["a", "b"])]
        ⟨[("s_mcho0", 1, 1), ("s_mcho1", 1, 1)], []⟩ [("s", Value.vset ["a"])]).map
        (fun p => p.1) = some [192] ∧
    [(192 : Nat)] ≠ [128] :=
  ⟨rfl, rfl, rfl, rfl, by decide⟩

/-- **C4** (code bug): the cache key is the *string concatenation*
`field.name + str(value)`, which is not injective on (name, value) pairs:
with fields `a` (4 bits) and `a1` (2 bits), the record
`{a: 12, a1: 2}` produces the key `"a12"` for both.  Field `a1` therefore
hits field `a`'s cache entry and replays `{"a_num": 12}` instead of packing
`{"a1_num": 2}`: the cached encode returns `[192]` (field `a1` left 0)
while recomputing every field returns `[200]` — the cache changes encode
results. -/
theorem c4_cache_key_collision :
    ("a" ++ pyStr (Value.vint 12) = "a1" ++ pyStr (Value.vint 2)) ∧
    (encode [("a", FieldKind.number 15), ("a1", FieldKind.number 3)]
        (freshState [("a", FieldKind.number 15), ("a1", FieldKind.number 3)])
        [("a", Value.vint 12), ("a1", Value.vint 2)]).map (fun p => p.1) = some [192] ∧
    encodeNoCache [("a", FieldKind.number 15), ("a1", FieldKind.number 3)]
        (freshState [("a", FieldKind.number 15), ("a1", FieldKind.number 3)])
        [("a", Value.vint 12), ("a1", Value.vint 2)] = some [200] ∧
    [(192 : Nat)] ≠ [200] :=
  ⟨rfl, rfl, rfl, by decide⟩

/-- **C7** (code bug): `NumberField.pack` only asserts
`value.bit_length() <= num_bits`; Python's `bit_length` is taken of the
absolute value, so the negative `-1` passes the assert on a 6-bit field
(declared via `max_value = 50`) and is silently truncated by the ctypes
bitfield to 63 — the claim's "rejects every negative value" is not checked
anywhere.  The two boundary facts that *are* true are included: `2^6 - 1`
is accepted and `2^6` is rejected. -/
theorem c7_negative_accepted :
    pack (FieldKind.number 50) "n" (Value.vint (-1)) = some [("n_num", -1)] ∧
    roundTrip [("n", FieldKind.number 50)] [("n", Value.vint (-1))] =
      some [("n", Value.vint 63)] ∧
    pack (FieldKind.number 50) "n" (Value.vint 63) = some [("n_num", 63)] ∧
    pack (FieldKind.number 50) "n" (Value.vint 64) = none :=
  ⟨rfl, rfl, rfl, rfl⟩

/-- **C8** (code bug): `ListField.pack` never compares the input length
with the declared capacity: `zip(self.fields, values)` silently drops the
excess elements while the size prefix records the full `len(values)`.  A
2-slot boolean list accepts a 3-element input with no error (size prefix 3,
third element dropped; the round trip then returns only 2 elements).
Lengths `0..=L` are accepted as the claim says. -/
theorem c8_capacity_not_checked :
    pack (FieldKind.list FieldKind.boolean 2) "l"
        (Value.vlist [Value.vbool true, Value.vbool true, Value.vbool true]) =
      some [("l_size", 3), ("l_0_bool", 1), ("l_1_bool", 1)] ∧
    roundTrip [("l", FieldKind.list FieldKind.boolean 2)]
        [("l", Value.vlist [Value.vbool true, Value.vbool true, Value.vbool true])] =
      some [("l", Value.vlist [Value.vbool true, Value.vbool true])] ∧
    pack (FieldKind.list FieldKind.boolean 2) "l" (Value.vlist []) = some [("l_size", 0)] ∧
    pack (FieldKind.list FieldKind.boolean 2) "l"
        (Value.vlist [Value.vbool true, Value.vbool false]) =
      some [("l_size", 2), ("l_0_bool", 1), ("l_1_bool", 0)] :=
  ⟨rfl, rfl, rfl, rfl⟩

/-- **C6 counterexample**: the claim says a 4-choice field occupies
`ceil(log2(4)) = 2` bits; `ChoiceField.__init__` computes
`len(choices).bit_length()`, which is 3 for 4 choices. -/
theorem c6_counterexample :
    subFields (FieldKind.choice ["bitter", "milky", "white", "dark"]) "kind" =
      [("kind_cho", 3)] ∧ (3 : Nat) ≠ 2 :=
  ⟨rfl, by decide⟩

/-- **C6 amended**: for every non-empty choices list of length `n`, a
Choice field consists of one sub-field of width `bit_length(n)` (not
`bit_length(n-1)`); this width is at least 1 and strictly exceeds what is
needed: every index up to `n` itself fits in it. -/
theorem c6_choice_width (choices : List String) (name : String) (h : choices ≠ []) :
    subFields (FieldKind.choice choices) name =
      [(prefixName name "cho", bitLen choices.length)] ∧
    1 ≤ bitLen choices.length ∧ choices.length < 2 ^ bitLen choices.length := by
  refine ⟨rfl, ?_, lt_two_pow_bitLen _⟩
  have h1 : 1 ≤ choices.length := by
    cases choices with
    | nil => exact absurd rfl h
    | cons a l => simp
  have h2 := lt_two_pow_bitLen choices.length
  by_contra hb
  have h0 : bitLen choices.length = 0 := by omega
  rw [h0, pow_zero] at h2
  omega

/-- **C6 amended witness**: at the 3-choice list of the usage example the
width is `bit_length(3) = 2`. -/
theorem c6_choice_width_witness :
    subFields (FieldKind.choice ["bitter", "milky", "white"]) "kind" =
      [(prefixName "kind" "cho", bitLen 3)] ∧
    1 ≤ bitLen 3 ∧ 3 < 2 ^ bitLen 3 :=
  c6_choice_width ["bitter", "milky", "white"] "kind" (by decide)

/-- **C9**: for every Date field, regardless of `min_year`/`max_year`,
`pack` stores the year sub-field as `value.year - 2000` and month/day
verbatim, and `unpack` reconstructs the date as
`(2000 + stored_year, stored_month, stored_day)` (provided those numbers
form a valid calendar date, which `datetime.date` enforces). -/
theorem c9_date_epoch_2000 (minYear maxYear : Nat) (name : String) (y m d : Nat)
    (hv : isValidDate y m d = true) :
    pack (FieldKind.date minYear maxYear) name (Value.vdate y m d) =
      some [(prefixName name "year", (y : Int) - 2000),
            (prefixName name "month", (m : Int)), (prefixName name "day", (d : Int))] ∧
    ∀ st : Store,
      isValidDate (2000 + storeGet st (prefixName name "year"))
        (storeGet st (prefixName name "month")) (storeGet st (prefixName name "day")) = true →
      unpack (FieldKind.date minYear maxYear) name st =
        some (Value.vdate (2000 + storeGet st (prefixName name "year"))
          (storeGet st (prefixName name "month")) (storeGet st (prefixName name "day"))) := by
  constructor
  · have hrfl : pack (FieldKind.date minYear maxYear) name (Value.vdate y m d) =
        if isValidDate y m d then
          some [(prefixName name "year", (y : Int) - 2000),
                (prefixName name "month", (m : Int)), (prefixName name "day", (d : Int))]
        else none := rfl
    rw [hrfl, hv]
    simp
  · intro st h
    have hrfl : unpack (FieldKind.date minYear maxYear) name st =
        if isValidDate (2000 + storeGet st (prefixName name "year"))
            (storeGet st (prefixName name "month")) (storeGet st (prefixName name "day")) then
          some (Value.vdate (2000 + storeGet st (prefixName name "year"))
            (storeGet st (prefixName name "month")) (storeGet st (prefixName name "day")))
        else none := rfl
    rw [hrfl, h]
    simp

/-- **C9 witness**: `2015-09-16` on a `DateField(min_year=2000,
max_year=2016)` stores `(15, 9, 16)` and unpacks back. -/
theorem c9_date_epoch_2000_witness :
    pack (FieldKind.date 2000 2016) "made_on" (Value.vdate 2015 9 16) =
      some [(prefixName "made_on" "year", (2015 : Int) - 2000),
            (prefixName "made_on" "month", (9 : Int)), (prefixName "made_on" "day", (16 : Int))] ∧
    unpack (FieldKind.date 2000 2016) "made_on"
        [("made_on_year", 5, 15), ("made_on_month", 4, 9), ("made_on_day", 5, 16)] =
      some (Value.vdate 2015 9 16) := by
  have h := c9_date_epoch_2000 2000 2016 "made_on" 2015 9 16 (by decide)
  exact ⟨h.1, h.2 [("made_on_year", 5, 15), ("made_on_month", 4, 9), ("made_on_day", 5, 16)]
    (by decide)⟩

/-- **C1 counterexample**: the record value "FF" for a `HexField(2)` is in
the claim's valid domain (a hex string of the declared length), but the
round trip returns the lowercase form "ff" — `binascii.hexlify` always
emits lowercase — so `decode(encode(record)) == record` fails. -/
theorem c1_counterexample :
    roundTrip [("c", FieldKind.hex 2)] [("c", Value.vhex "FF")] =
      some [("c", Value.vhex "ff")] ∧
    ¬ RecEquiv [("c", Value.vhex "FF")] [("c", Value.vhex "ff")] := by
  constructor
  · rfl
  · intro h
    have h2 : List.Forall₂ (fun (a b : String × Value) => a.1 = b.1 ∧ VEquiv a.2 b.2)
        [("c", Value.vhex "FF")] [("c", Value.vhex "ff")] := h
    rcases h2 with _ | ⟨⟨_, hv⟩, _⟩
    exact absurd (vhex_inv hv) (by decide)

/-- **C1 (amended)**: for every schema and every record with one value per
field, each in its field's valid domain — non-negative integers fitting the
declared bits, booleans, **lowercase** hex strings of the declared length,
declared choice labels, subsets of the declared choices, valid dates in the
stored year window, lists within capacity of valid elements — and whose
sub-field names and encode-cache key strings are collision-free,
`decode(encode(record))` on a fresh instance succeeds and returns the
record, with set equality for multi-choice fields. (Uppercase hex values
round-trip to their lowercase form, see the counterexample; the layout's
byte size is modelled from the spec, see `totalBytes`.) -/
theorem c1_roundtrip (sch : Schema) (rec : Record)
    (hrecnames : rec.map (fun e => e.1) = sch.map (fun f => f.1))
    (hrecnd : (rec.map (fun e => e.1)).Nodup)
    (hvalid : ∀ f ∈ sch, validValue f.2 (lookupValue rec f.1) = true)
    (hnd : ((subFieldsAll sch).map (fun e => e.1)).Nodup)
    (hkeys : (sch.map (fun f => f.1 ++ pyStr (lookupValue rec f.1))).Nodup) :
    ∃ rec', roundTrip sch rec = some rec' ∧ RecEquiv rec rec' := by
  rcases packAll_exists sch rec hvalid (schema_seg_nodup sch hnd) with ⟨parts, hfparts⟩
  have hlen : sch.length = parts.length := hfparts.length_eq
  have hNC : encodeFieldsNoCache sch rec (zeroOf (subFieldsAll sch)) =
      some (applyDict (zeroOf (subFieldsAll sch)) parts.flatten) :=
    encodeFieldsNoCache_eq rec sch parts
      (List.Forall₂.imp (fun a b h => h.1) hfparts) _
  set S := applyDict (zeroOf (subFieldsAll sch)) parts.flatten with hSdef
  rcases encodeFields_eq_noCache rec sch (zeroOf (subFieldsAll sch)) [] hkeys
      (fun f _ => rfl) with ⟨cache2, hEF⟩
  have hEF2 : encodeFields sch rec (zeroOf (subFieldsAll sch)) [] = some (S, cache2) := by
    rw [hEF, hNC]
    rfl
  have henc : encodeFresh sch rec = some (storeToBytes sch S) := by
    show ((encodeFields sch rec (freshState sch).store (freshState sch).cache).map
      (fun p => (storeToBytes sch p.1, (⟨p.1, p.2⟩ : EngineState)))).map (fun p => p.1) =
      some (storeToBytes sch S)
    rw [show encodeFields sch rec (freshState sch).store (freshState sch).cache =
        some (S, cache2) from hEF2]
    rfl
  have hshape : storeShape S = subFieldsAll sch := by
    rw [hSdef, applyDict_shape, storeShape_zeroOf]
  have hbound : storeBounded S := storeBounded_applyDict _ _ (storeBounded_zeroOf _)
  have hreads : ReadsD parts.flatten (subFieldsAll sch) S :=
    readsD_dictStore parts.flatten (subFieldsAll sch) hnd
      (packAll_keys_nodup sch rec parts hnd hfparts)
      (packAll_keys_sub sch rec parts hfparts)
  have hloc := packAll_localize sch rec parts S hnd hfparts hreads
  have hcomb : List.Forall₂ (fun (f : String × FieldKind) d =>
      pack f.2 f.1 (lookupValue rec f.1) = some d ∧
      validValue f.2 (lookupValue rec f.1) = true ∧
      ((subFields f.2 f.1).map (fun e => e.1)).Nodup ∧
      ReadsD d (subFields f.2 f.1) S) sch parts := by
    rw [List.forall₂_iff_get]
    refine ⟨hlen, ?_⟩
    intro i h1 h2
    have hP := (List.forall₂_iff_get.mp hfparts).2 i h1 h2
    exact ⟨hP.1, hvalid _ (List.get_mem sch i h1),
      schema_seg_nodup sch hnd _ (List.get_mem sch i h1), hloc i h1 h2⟩
  rcases unpackFields_core rec S sch parts hcomb with ⟨rec2, hrec2, hfa⟩
  have hdec := decode_storeToBytes sch (freshState sch) S hshape hbound
  have hrt : roundTrip sch rec = some rec2 := by
    show (encodeFresh sch rec).bind
      (fun bs => (decode sch (freshState sch) bs).map (fun p => p.1)) = some rec2
    rw [henc]
    show (decode sch (freshState sch) (storeToBytes sch S)).map (fun p => p.1) = some rec2
    rw [hdec, hrec2]
    rfl
  refine ⟨rec2, hrt, ?_⟩
  show List.Forall₂ (fun (a b : String × Value) => a.1 = b.1 ∧ VEquiv a.2 b.2) rec rec2
  have hlrec : rec.length = sch.length := by
    have h := congrArg List.length hrecnames
    simpa using h
  have hfa2 := List.forall₂_iff_get.mp hfa
  rw [List.forall₂_iff_get]
  refine ⟨hlrec.trans hfa2.1, ?_⟩
  intro i h1 h2
  have hsi : i < sch.length := by omega
  have hname : (rec.get ⟨i, h1⟩).1 = (sch.get ⟨i, hsi⟩).1 := by
    have h := List.get_of_eq hrecnames ⟨i, by simpa using h1⟩
    simpa using h
  have hQ := hfa2.2 i hsi h2
  refine ⟨hname.trans hQ.1.symm, ?_⟩
  have hlk : lookupValue rec (sch.get ⟨i, hsi⟩).1 = (rec.get ⟨i, h1⟩).2 := by
    rw [← hname]
    exact lookupValue_get_of_nodup rec hrecnd i h1
  have hq2 := hQ.2
  rw [hlk] at hq2
  exact hq2

/-- **C1 (amended) witness**: a three-field schema (6-bit number, boolean,
one-byte hex) with record `{n: 3, b: True, h: "ab"}` satisfies every
hypothesis and round-trips. -/
theorem c1_roundtrip_witness :
    ∃ rec', roundTrip
      [("n", FieldKind.number 5), ("b", FieldKind.boolean), ("h", FieldKind.hex 2)]
      [("n", Value.vint 3), ("b", Value.vbool true), ("h", Value.vhex "ab")] = some rec' ∧
    RecEquiv [("n", Value.vint 3), ("b", Value.vbool true), ("h", Value.vhex "ab")] rec' :=
  c1_roundtrip
    [("n", FieldKind.number 5), ("b", FieldKind.boolean), ("h", FieldKind.hex 2)]
    [("n", Value.vint 3), ("b", Value.vbool true), ("h", Value.vhex "ab")]
    (by decide) (by decide) (by decide) (by decide) (by decide)

/-- **C10**: for every Hex field, `pack` accepts hex strings in either
letter case (any string of hex digits of the declared length), the packed
bytes depend only on the digit values — the lowercase form packs to the
very same dict — and unpacking the resulting structure returns exactly the
lowercase form of the input, so the hex round trip lowercases its input
and is the identity precisely on lowercase inputs. -/
theorem c10_hex_lowercases (length : Nat) (name : String) (s : String)
    (hlen : s.length = 2 * (length / 2))
    (hdig : ∀ c ∈ s.toList, isHexDigit c = true) :
    ∃ d, pack (FieldKind.hex length) name (Value.vhex s) = some d ∧
      pack (FieldKind.hex length) name
        (Value.vhex (String.mk (s.toList.map lowerHexChar))) = some d ∧
      (∀ S, ReadsD d (subFields (FieldKind.hex length) name) S →
        unpack (FieldKind.hex length) name S =
          some (Value.vhex (String.mk (s.toList.map lowerHexChar)))) ∧
      (String.mk (s.toList.map lowerHexChar) = s ↔ s.toList.all isLowerHex = true) := by
  have hslen : s.toList.length = s.length := rfl
  rcases hexPairs_spec s.toList hdig (by rw [hslen, hlen]; exact ⟨length / 2, by ring⟩)
    with ⟨bs, hbs, hblen, hblt, hbhex⟩
  have hpack : pack (.hex length) name (.vhex s) =
      some [(prefixName name "hex", (bytesBE bs : Int))] := by
    show (if s.length = 2 * (length / 2) then
      (hexPairs s.toList).map
        (fun bs2 => [(prefixName name "hex", (bytesBE bs2 : Int))]) else none) = _
    rw [if_pos hlen, hbs]
    rfl
  refine ⟨_, hpack, ?_, ?_, ?_⟩
  · show (if (String.mk (s.toList.map lowerHexChar)).length = 2 * (length / 2) then
        (hexPairs (s.toList.map lowerHexChar)).map
          (fun bs2 => [(prefixName name "hex", (bytesBE bs2 : Int))]) else none) =
      some [(prefixName name "hex", (bytesBE bs : Int))]
    rw [show (String.mk (s.toList.map lowerHexChar)).length = s.length by
      show (s.toList.map lowerHexChar).length = s.length
      rw [List.length_map]
      exact hslen]
    rw [if_pos hlen, hexPairs_map_lower, hbs]
    rfl
  · intro S hS
    have hread := (hS (prefixName name "hex") (8 * (length / 2))
      (by simp [subFields])).2 (bytesBE bs) (by simp)
    have hbslen : bs.length = length / 2 := by
      rw [hslen] at hblen
      omega
    have hblt2 : (bytesBE bs : Int) < (2 : Int) ^ (8 * (length / 2)) := by
      have h1 : bytesBE bs < 2 ^ (8 * (length / 2)) := by
        rw [← hbslen]
        exact bytesBE_lt bs hblt
      calc (bytesBE bs : Int) < ((2 ^ (8 * (length / 2)) : Nat) : Int) := by exact_mod_cast h1
        _ = (2 : Int) ^ (8 * (length / 2)) := by push_cast; ring
    have hmask : storeGet S (prefixName name "hex") = bytesBE bs := by
      rw [hread, Int.emod_eq_of_lt (by positivity) hblt2]
      simp
    show some (Value.vhex (String.mk
        ((byteSplit (length / 2) (storeGet S (prefixName name "hex"))).flatMap
          byteHexChars))) = _
    rw [hmask, ← hbslen, byteSplit_bytesBE bs hblt, hbhex]
  · constructor
    · intro h
      have hl : s.toList.map lowerHexChar = s.toList := congrArg String.toList h
      rw [List.all_eq_true]
      intro c hc
      exact isLowerHex_of_lower_eq c (hdig c hc)
        ((map_eq_self_forall lowerHexChar s.toList).mp hl c hc)
    · intro h
      rw [List.all_eq_true] at h
      have hl : s.toList.map lowerHexChar = s.toList :=
        (map_eq_self_forall lowerHexChar s.toList).mpr
          (fun c hc => lowerHexChar_of_isLowerHex c (h c hc))
      rw [hl]
      rfl

/-- **C10 witness**: the mixed-case input "Ab" on a `HexField(2)` satisfies
the hypotheses; its round trip yields "ab". -/
theorem c10_hex_lowercases_witness :
    "Ab".length = 2 * (2 / 2) ∧
    (∀ c ∈ "Ab".toList, isHexDigit c = true) ∧
    (∃ d, pack (FieldKind.hex 2) "h" (Value.vhex "Ab") = some d ∧
      pack (FieldKind.hex 2) "h"
        (Value.vhex (String.mk ("Ab".toList.map lowerHexChar))) = some d ∧
      (∀ S, ReadsD d (subFields (FieldKind.hex 2) "h") S →
        unpack (FieldKind.hex 2) "h" S =
          some (Value.vhex (String.mk ("Ab".toList.map lowerHexChar)))) ∧
      (String.mk ("Ab".toList.map lowerHexChar) = "Ab" ↔
        "Ab".toList.all isLowerHex = true)) :=
  ⟨by decide, by decide, c10_hex_lowercases 2 "h" "Ab" (by decide) (by decide)⟩

end Stingy
